import Mathlib

/-!
# Data Representation Templates of GRIB2: registry and persistence codec

A shallow embedding of `pkg/grib2/drt/template.go`: the dispatch of a template number to
the fixed-layout header decoder (`ReadTemplate`) and the JSON persistence codec
(`TemplateMarshaler.MarshalJSON`, `TemplateMarshaler.UnmarshalJSON`), together with the
library routines they call (`io.ReadFull`, `binary.Read`, `binary.Write`,
`hex.EncodeToString`, `hex.DecodeString`).

Conventions.
* A Go `byte` is a `Fin 256`; a Go `string` and a `[]byte` are lists of bytes.
* A Go function returning `(T, error)` returns a pair of options here (`nil` is `none`);
  a function that also advances a reader returns the reader afterwards as well.
* Machine words are natural numbers reduced `% 256 ^ w` for a field of `w` bytes.
* A `float32` field is held as its IEEE 754 bit pattern. `binary.Read` and `binary.Write`
  reach such a field through a conversion to `float64` and back, which turns a signalling
  NaN into the quiet NaN of the same payload; every other pattern is unchanged.
-/

namespace drt

/-! ## Bytes and strings -/

/-- A Go `byte`. -/
abbrev Byte := Fin 256

/-- A Go `string`: an immutable sequence of bytes. -/
abbrev GoString := List Byte

/-- The byte of an ASCII character. -/
def byteOf (c : Char) : Byte := ⟨c.toNat % 256, Nat.mod_lt _ (by decide)⟩

/-- The bytes of an ASCII string literal. -/
def ascii (s : String) : GoString := s.data.map byteOf

/-! ## Errors -/

/-- The error values that the functions of this file can return. -/
inductive Error where
  /-- An error made by `fmt.Errorf`; the payload is its message. -/
  | errorf (msg : String)
  /-- The value `io.EOF`. -/
  | EOF
  /-- The value `io.ErrUnexpectedEOF`. -/
  | ErrUnexpectedEOF
  /-- A `hex.InvalidByteError`; the payload is the offending byte. -/
  | InvalidByteError (b : Byte)
  /-- The value `hex.ErrLength`. -/
  | ErrLength
  /-- The error of `binary.Write` on a value that is not of fixed size; the payload is its message. -/
  | notFixedSize (msg : String)
  /-- An error of `encoding/json`; the payload is its message. -/
  | json (msg : String)
  deriving DecidableEq, Repr

/-- Equality of results is decidable. -/
instance instDecidableEqExcept {ε α : Type} [DecidableEq ε] [DecidableEq α] :
    DecidableEq (Except ε α)
  | .ok a, .ok b => if h : a = b then isTrue (congrArg _ h) else isFalse (fun e => h (Except.ok.inj e))
  | .error a, .error b =>
    if h : a = b then isTrue (congrArg _ h) else isFalse (fun e => h (Except.error.inj e))
  | .ok _, .error _ => isFalse (fun e => Except.noConfusion e)
  | .error _, .ok _ => isFalse (fun e => Except.noConfusion e)

/-! ## Big-endian words -/

namespace binary

/-- The `w` bytes of `v`, most significant first (`binary.BigEndian.PutUint16/32`, and a
single byte for `w = 1`): byte `i` is `byte(v >> (8 * (w - 1 - i)))`. -/
def putUint : Nat → Nat → List Byte
  | 0, _ => []
  | w + 1, v => ⟨v / 256 ^ w % 256, Nat.mod_lt _ (by decide)⟩ :: putUint w v

/-- The word held by a list of bytes, most significant first (`binary.BigEndian.Uint16/32`). -/
def getUint : List Byte → Nat
  | [] => 0
  | b :: bs => b.val * 256 ^ bs.length + getUint bs

end binary

/-! ## Floating-point fields -/

/-- Whether a 32-bit pattern is a signalling NaN of IEEE 754 single precision: the eight
bits of the exponent are ones, the fraction is not zero, and its first bit (bit 22, the
quiet bit) is zero. -/
def isSignallingNaN (w : Nat) : Prop :=
  w / 2 ^ 23 % 256 = 255 ∧ w % 2 ^ 23 ≠ 0 ∧ w / 2 ^ 22 % 2 = 0

instance (w : Nat) : Decidable (isSignallingNaN w) := inferInstanceAs (Decidable (_ ∧ _ ∧ _))

/-- The pattern of `math.Float32bits(float32(float64(math.Float32frombits(w))))`: the
conversion to `float64` sets the quiet bit of a signalling NaN and changes nothing else. -/
def quietNaN (w : Nat) : Nat := if isSignallingNaN w then w + 2 ^ 22 else w

/-! ## Header records -/

/-- The type of a field of a Go struct of fixed size: an integer of some bytes, signed or
not, or a `float32`. -/
inductive FieldType where
  /-- Types `uint8`, `int8`, `uint16`, `int16`, `uint32`, `int32`, by their size in bytes. -/
  | int (size : Nat)
  /-- Type `float32`. -/
  | float32
  deriving DecidableEq, Repr

/-- The size of a field in bytes. -/
def FieldType.size : FieldType → Nat
  | .int w => w
  | .float32 => 4

/-- The word that comes out of the conversion that `binary.Read` and `binary.Write` apply
to a field: `int16(x)`, `uint32(x)` and the like keep the pattern of an integer, and the
passage of a `float32` through `float64` quiets a signalling NaN. -/
def FieldType.convert : FieldType → Nat → Nat
  | .int _, w => w
  | .float32, w => quietNaN w

/-- A value of a Go struct type whose fields are fixed-size scalars, given by the types of
its fields in declaration order. Each field is held as its machine word: an unsigned
integer as its value, a signed integer as its two-complement pattern, a `float32` as its
IEEE 754 pattern. -/
def Record : List FieldType → Type
  | [] => Unit
  | f :: fs => Fin (256 ^ f.size) × Record fs

/-- Equality of records is decidable, field by field. -/
def Record.eqDec : (layout : List FieldType) → DecidableEq (Record layout)
  | [] => fun _ _ => isTrue rfl
  | f :: fs => fun (a b : Fin (256 ^ f.size) × Record fs) =>
    match decEq a.1 b.1, Record.eqDec fs a.2 b.2 with
    | isTrue h₁, isTrue h₂ => isTrue (Prod.ext h₁ h₂)
    | isFalse h₁, _ => isFalse (fun h => h₁ (congrArg Prod.fst h))
    | _, isFalse h₂ => isFalse (fun h => h₂ (congrArg Prod.snd h))

instance (layout : List FieldType) : DecidableEq (Record layout) := Record.eqDec layout

namespace binary

/-- The number of bytes of the encoding of a record (`binary.Size`, `dataSize`). -/
def dataSize (layout : List FieldType) : Nat := (layout.map FieldType.size).sum

/-- The decoder of `binary.Read` (`decoder.value` on a struct): the fields are taken from
the buffer in order, each from as many bytes as its size, most significant byte first,
and stored through the conversion of their type (`v.SetInt(int64(d.int16()))`,
`v.SetFloat(float64(math.Float32frombits(d.uint32())))` and the like). -/
def decode : (layout : List FieldType) → List Byte → Record layout
  | [], _ => ()
  | f :: fs, buf =>
    (⟨f.convert (getUint (buf.take f.size) % 256 ^ f.size) % 256 ^ f.size,
        Nat.mod_lt _ (Nat.pow_pos (by decide))⟩,
      decode fs (buf.drop f.size))

/-- The encoder of `binary.Write` (`encoder.value` on a struct): the fields are written in
order, each on as many bytes as its size, most significant byte first, after the
conversion of their type (`e.uint32(math.Float32bits(float32(v.Float())))` and the like). -/
def encode : (layout : List FieldType) → Record layout → List Byte
  | [], _ => []
  | f :: fs, (v, rest) => putUint f.size (f.convert v.val) ++ encode fs rest

end binary

/-- The field of a record at an index, as its machine word; 0 past the last field. -/
def Record.field : (layout : List FieldType) → Record layout → Nat → Nat
  | [], _, _ => 0
  | _ :: _, (v, _), 0 => v.val
  | _ :: fs, (_, rest), i + 1 => Record.field fs rest i

/-- The record with every field passed through the conversion of its type: the record with
its signalling NaNs quieted. -/
def Record.quieted : (layout : List FieldType) → Record layout → Record layout
  | [], _ => ()
  | f :: fs, (v, rest) =>
    (⟨f.convert v.val % 256 ^ f.size, Nat.mod_lt _ (Nat.pow_pos (by decide))⟩,
      Record.quieted fs rest)

namespace definition

/-- Modelled from the spec: the declaration of `definition.SimplePacking` is not in the
source file. The fields of template 5.0 and their widths in
bytes, as section 4.3 lists them and the GRIB2 regulation sizes them: reference value R
(IEEE single precision, 4), binary scale factor E (2), decimal scale factor D (2),
bits per value N (1), type of the original values (1). -/
def SimplePacking.layout : List FieldType := [.float32, .int 2, .int 2, .int 1, .int 1]

/-- Modelled from the spec: the declaration of `definition.ComplexPacking` is not in the
source file. It extends the Simple Packing header (section 4.4) with:
group splitting method (1), missing value management (1), primary and secondary missing
value substitutes (4, 4), number of groups NG (4), reference for group widths (1), bits
for group widths (1), reference for group lengths (4), length increment (1), true length
of last group (4), bits for scaled group lengths (1). -/
def ComplexPacking.layout : List FieldType :=
  SimplePacking.layout ++
    [.int 1, .int 1, .int 4, .int 4, .int 4, .int 1, .int 1, .int 4, .int 1, .int 4, .int 1]

/-- Modelled from the spec: the declaration of
`definition.ComplexPackingAndSpatialDifferencing` is not in the source file. It extends
the Complex Packing header (section 4.5) with: order of spatial differencing (1), number
of octets of the extra descriptors (1). -/
def ComplexPackingAndSpatialDifferencing.layout : List FieldType :=
  ComplexPacking.layout ++ [.int 1, .int 1]

/-- The header record of template 5.0. -/
abbrev SimplePacking := Record SimplePacking.layout

/-- The header record of template 5.2. -/
abbrev ComplexPacking := Record ComplexPacking.layout

/-- The header record of template 5.3. -/
abbrev ComplexPackingAndSpatialDifferencing := Record ComplexPackingAndSpatialDifferencing.layout

end definition

/-! ## Readers -/

/-- An `io.Reader` over bytes held in memory; its state is the sequence of bytes not yet
consumed. -/
structure Reader where
  /-- The bytes not yet consumed. -/
  buf : List Byte
  deriving DecidableEq, Repr

namespace bytes

/-- The function `bytes.NewBuffer(b)`, as a reader: the reader whose unread bytes are `b`. -/
def NewBuffer (b : List Byte) : Reader := ⟨b⟩

end bytes

namespace datapacking

/-- Modelled from the spec: the interface `datapacking.BitReader` is declared outside this
source file. Its `io.Reader` side is a byte-oriented source (sections 1 and 4.1) from
which the header is read in whole bytes ahead of the value bitstream. -/
abbrev BitReader := Reader

end datapacking

open datapacking (BitReader)

/-- The function `io.ReadFull(r, buf)` with `len(buf) = n` on an in-memory reader: the
bytes read, the error, and the reader afterwards. With fewer than `n` bytes left it
consumes them all and fails, with `io.EOF` when nothing was read and with
`io.ErrUnexpectedEOF` otherwise. -/
def ioReadFull (r : Reader) (n : Nat) : (List Byte × Option Error) × Reader :=
  if n ≤ r.buf.length then
    ((r.buf.take n, none), ⟨r.buf.drop n⟩)
  else if r.buf.length = 0 then
    (([], some Error.EOF), r)
  else
    ((r.buf, some Error.ErrUnexpectedEOF), ⟨[]⟩)

namespace binary

/-- The function `binary.Read(r, binary.BigEndian, &v)` for `v` of a fixed-size struct
type: it reads `dataSize` bytes in full, returns the error of that read if there is one
(and leaves `v` alone), and decodes the fields otherwise. -/
def Read (r : Reader) (layout : List FieldType) : Except Error (Record layout) × Reader :=
  match ioReadFull r (dataSize layout) with
  | ((_, some err), r1) => (.error err, r1)
  | ((buf, none), r1) => (.ok (decode layout buf), r1)

end binary

/-- The value passed to `binary.Write` as `any`: a value of a fixed-size struct type, or a
value of a type that has no fixed size (named by its type). -/
inductive AnyValue where
  /-- A record of fixed-size fields. -/
  | fixed (layout : List FieldType) (rec : Record layout)
  /-- A value whose type is not of fixed size, such as a string, an `int` or a map. -/
  | notFixed (typeName : String)
  deriving DecidableEq

namespace binary

/-- The function `binary.Write(&buf, binary.BigEndian, data)` on a `bytes.Buffer` holding
`buf`: the buffer afterwards and the error. A value that is not of fixed size is refused
and nothing is written; a `bytes.Buffer` accepts every write. -/
def Write (buf : List Byte) (data : AnyValue) : List Byte × Option Error :=
  match data with
  | .fixed layout rec => (buf ++ encode layout rec, none)
  | .notFixed typeName =>
    (buf, some (.notFixedSize ("binary.Write: some values are not fixed-sized in type " ++ typeName)))

end binary

/-! ## Templates -/

/-- The type `TemplateNumber`, a `uint16`. -/
abbrev TemplateNumber := Fin 65536

/-- The constant `GridPointDataSimplePacking`. -/
def GridPointDataSimplePacking : TemplateNumber := 0
/-- The constant `MatrixValueAtGridPointSimplePacking`. -/
def MatrixValueAtGridPointSimplePacking : TemplateNumber := 1
/-- The constant `GridPointDataComplexPacking`. -/
def GridPointDataComplexPacking : TemplateNumber := 2
/-- The constant `GridPointDataComplexPackingAndSpatialDifferencing`. -/
def GridPointDataComplexPackingAndSpatialDifferencing : TemplateNumber := 3
/-- The constant `GridPointDataIEEEFloatingPointData`. -/
def GridPointDataIEEEFloatingPointData : TemplateNumber := 4
/-- The constant `GridPointDataJPEG2000CodeStreamFormat`. -/
def GridPointDataJPEG2000CodeStreamFormat : TemplateNumber := 40
/-- The constant `GridPointDataPNG`. -/
def GridPointDataPNG : TemplateNumber := 41
/-- The constant `GridPointDataCCSDS`. -/
def GridPointDataCCSDS : TemplateNumber := 42
/-- The constant `SpectralDataSimplePacking`. -/
def SpectralDataSimplePacking : TemplateNumber := 50
/-- The constant `SpectralDataComplexPacking`. -/
def SpectralDataComplexPacking : TemplateNumber := 51
/-- The constant `SpectralDataComplexPackinForLimitedAreaModels`. -/
def SpectralDataComplexPackinForLimitedAreaModels : TemplateNumber := 53
/-- The constant `GridPointDataSimplePackingWithLogarithmPreProcessing`. -/
def GridPointDataSimplePackingWithLogarithmPreProcessing : TemplateNumber := 61
/-- The constant `RunLengthPackingWithLevelValues`. -/
def RunLengthPackingWithLevelValues : TemplateNumber := 200
/-- The constant `TemplateNumberMissing`. -/
def TemplateNumberMissing : TemplateNumber := 255

namespace gridpoint

/-- Modelled from the spec: the type `gridpoint.SimplePacking` is declared outside this
source file. A template instance is its header record and its element count (section 3). -/
structure SimplePacking where
  /-- The header record. -/
  tplDef : definition.SimplePacking
  /-- The element count. -/
  numVals : Int
  deriving DecidableEq

/-- Modelled from the spec: the type `gridpoint.ComplexPacking` is declared outside this
source file. A template instance is its header record and its element count (section 3). -/
structure ComplexPacking where
  /-- The header record. -/
  tplDef : definition.ComplexPacking
  /-- The element count. -/
  numVals : Int
  deriving DecidableEq

/-- Modelled from the spec: the type `gridpoint.ComplexPackingAndSpatialDifferencing` is
declared outside this source file. A template instance is its header record and its
element count (section 3). -/
structure ComplexPackingAndSpatialDifferencing where
  /-- The header record. -/
  tplDef : definition.ComplexPackingAndSpatialDifferencing
  /-- The element count. -/
  numVals : Int
  deriving DecidableEq

/-- Modelled from the spec: the constructor `gridpoint.NewSimplePacking` is declared
outside this source file; it builds the variant with `numVals` stored (section 4.1). -/
def NewSimplePacking (tplDef : definition.SimplePacking) (numVals : Int) : SimplePacking :=
  { tplDef := tplDef, numVals := numVals }

/-- Modelled from the spec: the constructor `gridpoint.NewComplexPacking` is declared
outside this source file; it builds the variant with `numVals` stored (section 4.1). -/
def NewComplexPacking (tplDef : definition.ComplexPacking) (numVals : Int) : ComplexPacking :=
  { tplDef := tplDef, numVals := numVals }

/-- Modelled from the spec: the constructor
`gridpoint.NewComplexPackingAndSpatialDifferencing` is declared outside this source file;
it builds the variant with `numVals` stored (section 4.1). -/
def NewComplexPackingAndSpatialDifferencing (tplDef : definition.ComplexPackingAndSpatialDifferencing)
    (numVals : Int) : ComplexPackingAndSpatialDifferencing :=
  { tplDef := tplDef, numVals := numVals }

end gridpoint

/-- A non-nil value of the interface `Template`, by dynamic type: a pointer to one of the
three packings of package `gridpoint`, or a value of any other type that has the methods
of the interface, of which `Definition()` and `GetNumVals()` are recorded. -/
inductive Template where
  /-- Dynamic type `*gridpoint.SimplePacking`. -/
  | SimplePacking (p : gridpoint.SimplePacking)
  /-- Dynamic type `*gridpoint.ComplexPacking`. -/
  | ComplexPacking (p : gridpoint.ComplexPacking)
  /-- Dynamic type `*gridpoint.ComplexPackingAndSpatialDifferencing`. -/
  | ComplexPackingAndSpatialDifferencing (p : gridpoint.ComplexPackingAndSpatialDifferencing)
  /-- Any other dynamic type. -/
  | other (definition : AnyValue) (numVals : Int)
  deriving DecidableEq

namespace Template

/-- Modelled from the spec: the method `GetNumVals` of the three packings is declared
outside this source file; it returns the stored element count (sections 3 and 4.1). -/
def GetNumVals : Template → Int
  | .SimplePacking p => p.numVals
  | .ComplexPacking p => p.numVals
  | .ComplexPackingAndSpatialDifferencing p => p.numVals
  | .other _ numVals => numVals

/-- Modelled from the spec: the method `Definition` of the three packings is declared
outside this source file; it returns the header record that the instance owns (section 3). -/
def Definition : Template → AnyValue
  | .SimplePacking p => .fixed definition.SimplePacking.layout p.tplDef
  | .ComplexPacking p => .fixed definition.ComplexPacking.layout p.tplDef
  | .ComplexPackingAndSpatialDifferencing p =>
    .fixed definition.ComplexPackingAndSpatialDifferencing.layout p.tplDef
  | .other d _ => d

end Template

/-- The function `ReadTemplate`: the template and the error it returns, and the reader
afterwards. `%d` prints the number in decimal. -/
def ReadTemplate (r : BitReader) (n : TemplateNumber) (numVals : Int) :
    (Option Template × Option Error) × BitReader :=
  if n = GridPointDataSimplePacking then
    match binary.Read r definition.SimplePacking.layout with
    | (.ok tplDef, r1) =>
      ((some (.SimplePacking (gridpoint.NewSimplePacking tplDef numVals)), none), r1)
    | (.error err, r1) => ((none, some err), r1)
  else if n = GridPointDataComplexPacking then
    match binary.Read r definition.ComplexPacking.layout with
    | (.ok tplDef, r1) =>
      ((some (.ComplexPacking (gridpoint.NewComplexPacking tplDef numVals)), none), r1)
    | (.error err, r1) => ((none, some err), r1)
  else if n = GridPointDataComplexPackingAndSpatialDifferencing then
    match binary.Read r definition.ComplexPackingAndSpatialDifferencing.layout with
    | (.ok tplDef, r1) =>
      ((some (.ComplexPackingAndSpatialDifferencing
        (gridpoint.NewComplexPackingAndSpatialDifferencing tplDef numVals)), none), r1)
    | (.error err, r1) => ((none, some err), r1)
  else
    ((none, some (.errorf ("data template not implemented: " ++ Nat.repr n.val))), r)

/-! ## Hexadecimal text -/

namespace hex

/-- The table `hextable`. -/
def hextable : List Byte := ascii "0123456789abcdef"

/-- The function `hex.EncodeToString`: two characters per byte, `hextable[v >> 4]` and then
`hextable[v & 0x0f]`. -/
def EncodeToString : List Byte → GoString
  | [] => []
  | v :: src => hextable.getD (v.val / 16) 0 :: hextable.getD (v.val % 16) 0 :: EncodeToString src

/-- The value of a hexadecimal character, in either case (`fromHexChar`, the table
`reverseHexTable`). -/
def fromHexChar (c : Byte) : Option Nat :=
  if 48 ≤ c.val ∧ c.val ≤ 57 then some (c.val - 48)
  else if 97 ≤ c.val ∧ c.val ≤ 102 then some (c.val - 97 + 10)
  else if 65 ≤ c.val ∧ c.val ≤ 70 then some (c.val - 65 + 10)
  else none

/-- The function `hex.Decode`, returning the bytes decoded before the error and the error:
the pairs are decoded in order, the first character that is not hexadecimal is reported as
an `InvalidByteError`, and a lone last hexadecimal character as `ErrLength`. -/
def Decode : List Byte → List Byte × Option Error
  | [] => ([], none)
  | [c] =>
    match fromHexChar c with
    | none => ([], some (.InvalidByteError c))
    | some _ => ([], some .ErrLength)
  | p :: q :: src =>
    match fromHexChar p with
    | none => ([], some (.InvalidByteError p))
    | some a =>
      match fromHexChar q with
      | none => ([], some (.InvalidByteError q))
      | some b =>
        let rest := Decode src
        (⟨(a * 16 + b) % 256, Nat.mod_lt _ (by decide)⟩ :: rest.1, rest.2)

/-- The function `hex.DecodeString`. -/
def DecodeString (s : GoString) : List Byte × Option Error := Decode s

end hex

/-! ## The persistence codec -/

/-- The struct `templateMarshaler`, with the JSON keys `number`, `content` and `vals`. -/
structure templateMarshaler where
  /-- Field `Number`, key `number`. -/
  Number : TemplateNumber
  /-- Field `Content`, key `content`. -/
  Content : GoString
  /-- Field `Vals`, key `vals`. -/
  Vals : Int
  deriving DecidableEq, Repr

namespace json

/-- The two functions of `encoding/json` that the codec calls, at the type
`templateMarshaler`: `json.Marshal(v)` returns the text and the error, and
`json.Unmarshal(data, &t)` on a zero `t` returns the error or the decoded struct. -/
structure Library where
  /-- The function `json.Marshal`. -/
  Marshal : templateMarshaler → Option (List Byte) × Option Error
  /-- The function `json.Unmarshal`. -/
  Unmarshal : List Byte → Except Error templateMarshaler

end json

/-! ### A reference implementation of the JSON library

The output of `json.Marshal` on a `templateMarshaler`, and a reader for the fragment of
JSON made of one object whose members are strings and integers, with white space between
the tokens. On that fragment it follows `json.Unmarshal`: keys are matched without regard
to case, unknown keys are skipped, a repeated key overwrites, and a number that does not
fit the field is an error. Text outside the fragment (escapes written with `\u`, members
that are `null`, nested values, fractions, bytes beyond ASCII) is refused. -/

namespace json

/-- The decimal text of an integer, as `strconv` prints it. -/
def formatInt (v : Int) : List Byte :=
  if v < 0 then byteOf '-' :: ascii (Nat.repr v.natAbs) else ascii (Nat.repr v.toNat)

/-- The escape of one byte inside a JSON string, as the encoder writes it with HTML
escaping on: the quote and the backslash, the control characters, and `<`, `>`, `&`. Other
bytes are copied, which is what the encoder does on ASCII; the content that `MarshalJSON`
passes is hexadecimal text, which has no byte to escape. -/
def escapeByte (c : Byte) : List Byte :=
  if c = byteOf '"' then ascii "\\\""
  else if c = byteOf '\\' then ascii "\\\\"
  else if c = 10 then ascii "\\n"
  else if c = 13 then ascii "\\r"
  else if c = 9 then ascii "\\t"
  else if c.val < 32 ∨ c = byteOf '<' ∨ c = byteOf '>' ∨ c = byteOf '&' then
    ascii "\\u00" ++ [hex.hextable.getD (c.val / 16) 0, hex.hextable.getD (c.val % 16) 0]
  else [c]

/-- The text of a JSON string. -/
def quote (s : GoString) : List Byte :=
  byteOf '"' :: (s.flatMap escapeByte ++ [byteOf '"'])

/-- The text that `json.Marshal` writes for a `templateMarshaler`: the members in the
order of the fields, without white space. -/
def marshalText (t : templateMarshaler) : List Byte :=
  ascii "\x7b\"number\":" ++ ascii (Nat.repr t.Number.val) ++ ascii ",\"content\":" ++
    quote t.Content ++ ascii ",\"vals\":" ++ formatInt t.Vals ++ ascii "\x7d"

/-- The tokens of the fragment. -/
inductive Token where
  /-- An opening brace. -/
  | lbrace
  /-- A closing brace. -/
  | rbrace
  /-- A colon. -/
  | colon
  /-- A comma. -/
  | comma
  /-- A string, unescaped. -/
  | str (s : GoString)
  /-- An integer literal: its sign and its digits. -/
  | num (neg : Bool) (digits : List Byte)
  deriving DecidableEq, Repr

/-- The state of the lexer between two bytes. -/
inductive Mode where
  /-- Between tokens. -/
  | gap
  /-- Inside a string; the bytes read so far. -/
  | inStr (acc : List Byte)
  /-- Inside a string, after a backslash. -/
  | inEsc (acc : List Byte)
  /-- Inside a number; its sign and the digits read so far. -/
  | inNum (neg : Bool) (acc : List Byte)

/-- Whether a byte is a decimal digit. -/
def isDigit (c : Byte) : Bool := 48 ≤ c.val && c.val ≤ 57

/-- The lexer on a byte met between tokens: the next state, and the tokens so far (latest
first); `none` on a byte that starts no token. -/
def lexGap (toks : List Token) (c : Byte) : Option (Mode × List Token) :=
  if c = 32 ∨ c = 9 ∨ c = 10 ∨ c = 13 then some (.gap, toks)
  else if c = byteOf '\x7b' then some (.gap, .lbrace :: toks)
  else if c = byteOf '\x7d' then some (.gap, .rbrace :: toks)
  else if c = byteOf ':' then some (.gap, .colon :: toks)
  else if c = byteOf ',' then some (.gap, .comma :: toks)
  else if c = byteOf '"' then some (.inStr [], toks)
  else if c = byteOf '-' then some (.inNum true [], toks)
  else if isDigit c then some (.inNum false [c], toks)
  else none

/-- The byte that a one-letter escape stands for. -/
def unescape (c : Byte) : Option Byte :=
  if c = byteOf '"' ∨ c = byteOf '\\' ∨ c = byteOf '/' then some c
  else if c = byteOf 'n' then some 10
  else if c = byteOf 'r' then some 13
  else if c = byteOf 't' then some 9
  else if c = byteOf 'b' then some 8
  else if c = byteOf 'f' then some 12
  else none

/-- Whether the digits of a number are a JSON integer: not empty, and no leading zero. -/
def validDigits (ds : List Byte) : Bool :=
  match ds with
  | [] => false
  | [_] => true
  | d :: _ :: _ => d != 48

/-- The lexer: the tokens of a text, latest first, or `none` when the text is not in the
fragment. -/
def lex : Mode → List Token → List Byte → Option (List Token)
  | .gap, toks, [] => some toks
  | .inNum neg acc, toks, [] => if validDigits acc then some (.num neg acc :: toks) else none
  | _, _, [] => none
  | .gap, toks, c :: cs =>
    match lexGap toks c with
    | none => none
    | some (m, toks1) => lex m toks1 cs
  | .inStr acc, toks, c :: cs =>
    if c = byteOf '"' then lex .gap (.str acc :: toks) cs
    else if c = byteOf '\\' then lex (.inEsc acc) toks cs
    else if c.val < 32 ∨ 128 ≤ c.val then none
    else lex (.inStr (acc ++ [c])) toks cs
  | .inEsc acc, toks, c :: cs =>
    match unescape c with
    | none => none
    | some b => lex (.inStr (acc ++ [b])) toks cs
  | .inNum neg acc, toks, c :: cs =>
    if isDigit c then lex (.inNum neg (acc ++ [c])) toks cs
    else if validDigits acc then
      match lexGap (.num neg acc :: toks) c with
      | none => none
      | some (.inNum _ _, _) => none
      | some (m, toks1) => lex m toks1 cs
    else none

/-- The value of a string of decimal digits. -/
def digitsValue (ds : List Byte) : Nat := ds.foldl (fun acc d => acc * 10 + (d.val - 48)) 0

/-- The ASCII lower case of a byte. -/
def lower (c : Byte) : Byte := if 65 ≤ c.val ∧ c.val ≤ 90 then c + 32 else c

/-- The assignment of one member to the struct: a key is matched without regard to case,
and an unknown key is skipped. -/
def assign (key : GoString) (v : Token) (t : templateMarshaler) : Except Error templateMarshaler :=
  if key.map lower = ascii "number" then
    match v with
    | .num false ds =>
      if h : digitsValue ds < 65536 then .ok { t with Number := ⟨digitsValue ds, h⟩ }
      else .error (.json "json: cannot unmarshal number into Go struct field templateMarshaler.number of type drt.TemplateNumber")
    | _ => .error (.json "json: cannot unmarshal into Go struct field templateMarshaler.number of type drt.TemplateNumber")
  else if key.map lower = ascii "content" then
    match v with
    | .str s => .ok { t with Content := s }
    | _ => .error (.json "json: cannot unmarshal into Go struct field templateMarshaler.content of type string")
  else if key.map lower = ascii "vals" then
    match v with
    | .num neg ds =>
      let i : Int := if neg then -(digitsValue ds : Int) else (digitsValue ds : Int)
      if -9223372036854775808 ≤ i ∧ i ≤ 9223372036854775807 then .ok { t with Vals := i }
      else .error (.json "json: cannot unmarshal number into Go struct field templateMarshaler.vals of type int")
    | _ => .error (.json "json: cannot unmarshal into Go struct field templateMarshaler.vals of type int")
  else
    match v with
    | .num _ _ => .ok t
    | .str _ => .ok t
    | _ => .error (.json "invalid character looking for beginning of value")

/-- The members of an object, after the opening brace, in order. -/
def members : List Token → templateMarshaler → Except Error templateMarshaler
  | .str key :: .colon :: v :: [.rbrace], t => assign key v t
  | .str key :: .colon :: v :: .comma :: rest, t =>
    match assign key v t with
    | .error err => .error err
    | .ok t1 => members rest t1
  | _, _ => .error (.json "invalid character in object")

/-- The reference `json.Unmarshal` into a zero `templateMarshaler`. -/
def unmarshalText (data : List Byte) : Except Error templateMarshaler :=
  match lex .gap [] data with
  | none => .error (.json "invalid character")
  | some toks =>
    match toks.reverse with
    | [.lbrace, .rbrace] => .ok { Number := 0, Content := [], Vals := 0 }
    | .lbrace :: rest => members rest { Number := 0, Content := [], Vals := 0 }
    | _ => .error (.json "json: cannot unmarshal into Go value of type drt.templateMarshaler")

/-- The reference implementation of the library. -/
def reference : Library where
  Marshal := fun t => (some (marshalText t), none)
  Unmarshal := unmarshalText

end json

/-- The struct `TemplateMarshaler`; its field is an interface value, `nil` or a template. -/
structure TemplateMarshaler where
  /-- Field `Template`. -/
  Template : Option Template
  deriving DecidableEq

namespace TemplateMarshaler

/-- The method `MarshalJSON`: `none` when the call panics (a method called on a nil
`Template`), and otherwise the text and the error it returns. -/
def MarshalJSON (J : json.Library) (tm : TemplateMarshaler) :
    Option (Option (List Byte) × Option Error) :=
  match tm.Template with
  | none => none
  | some t =>
    match binary.Write [] t.Definition with
    | (_, some err) => some (none, some err)
    | (buf, none) =>
      let tplNum : TemplateNumber :=
        match t with
        | .SimplePacking _ => GridPointDataSimplePacking
        | .ComplexPacking _ => GridPointDataComplexPacking
        | .ComplexPackingAndSpatialDifferencing _ => GridPointDataComplexPackingAndSpatialDifferencing
        | .other _ _ => 0
      some (J.Marshal { Number := tplNum, Content := hex.EncodeToString buf, Vals := t.GetNumVals })

/-- The method `UnmarshalJSON`: the error it returns and the receiver afterwards. -/
def UnmarshalJSON (J : json.Library) (tm : TemplateMarshaler) (data : List Byte) :
    Option Error × TemplateMarshaler :=
  match J.Unmarshal data with
  | .error err => (some err, tm)
  | .ok t =>
    match hex.DecodeString t.Content with
    | (_, some err) => (some err, tm)
    | (decoded, none) =>
      if t.Number = GridPointDataSimplePacking then
        match binary.Read (bytes.NewBuffer decoded) definition.SimplePacking.layout with
        | (.error err, _) => (some err, tm)
        | (.ok tplDef, _) =>
          (none, { tm with Template := some (.SimplePacking (gridpoint.NewSimplePacking tplDef t.Vals)) })
      else if t.Number = GridPointDataComplexPacking then
        match binary.Read (bytes.NewBuffer decoded) definition.ComplexPacking.layout with
        | (.error err, _) => (some err, tm)
        | (.ok tplDef, _) =>
          (none, { tm with Template := some (.ComplexPacking (gridpoint.NewComplexPacking tplDef t.Vals)) })
      else if t.Number = GridPointDataComplexPackingAndSpatialDifferencing then
        match binary.Read (bytes.NewBuffer decoded)
            definition.ComplexPackingAndSpatialDifferencing.layout with
        | (.error err, _) => (some err, tm)
        | (.ok tplDef, _) =>
          (none, { tm with Template := some (.ComplexPackingAndSpatialDifferencing
            (gridpoint.NewComplexPackingAndSpatialDifferencing tplDef t.Vals)) })
      else
        (some (.errorf ("data template not implemented: " ++ Nat.repr t.Number.val)), tm)

end TemplateMarshaler

/-! ## Vocabulary of the statements -/

/-- The family table: the header layout that `ReadTemplate` and `UnmarshalJSON` read for an
implemented template number (0, 2, 3); empty for every other number, for which no header
is read. -/
def headerLayout (n : TemplateNumber) : List FieldType :=
  if n = GridPointDataSimplePacking then definition.SimplePacking.layout
  else if n = GridPointDataComplexPacking then definition.ComplexPacking.layout
  else if n = GridPointDataComplexPackingAndSpatialDifferencing then
    definition.ComplexPackingAndSpatialDifferencing.layout
  else []

/-- The fixed header length `L(n)` of the family of a template number, in bytes. -/
def headerLen (n : TemplateNumber) : Nat := binary.dataSize (headerLayout n)

/-- Whether a template is one of the three implemented variants. -/
def Template.implemented : Template → Bool
  | .other _ _ => false
  | _ => true

/-- The header field of a template at an index, as its machine word: field 0 is the
reference value R of the three packings. -/
def Template.field : Template → Nat → Nat
  | .SimplePacking p, i => Record.field definition.SimplePacking.layout p.tplDef i
  | .ComplexPacking p, i => Record.field definition.ComplexPacking.layout p.tplDef i
  | .ComplexPackingAndSpatialDifferencing p, i =>
    Record.field definition.ComplexPackingAndSpatialDifferencing.layout p.tplDef i
  | .other (.fixed layout rec) _, i => Record.field layout rec i
  | .other (.notFixed _) _, _ => 0

/-- The template with the signalling NaNs of its header quieted; a template of another
dynamic type is left as it is. -/
def Template.quieted : Template → Template
  | .SimplePacking p =>
    .SimplePacking ⟨Record.quieted definition.SimplePacking.layout p.tplDef, p.numVals⟩
  | .ComplexPacking p =>
    .ComplexPacking ⟨Record.quieted definition.ComplexPacking.layout p.tplDef, p.numVals⟩
  | .ComplexPackingAndSpatialDifferencing p =>
    .ComplexPackingAndSpatialDifferencing
      ⟨Record.quieted definition.ComplexPackingAndSpatialDifferencing.layout p.tplDef, p.numVals⟩
  | .other d numVals => .other d numVals

/-- The big-endian word of a sequence of bytes, by Horner: `((b0 * 256 + b1) * 256 + ...`. -/
def bigEndian (bs : List Byte) : Nat := bs.foldl (fun acc b => acc * 256 + b.val) 0

/-- The bytes of a header with a signalling NaN in its first four bytes quieted: the first
four bytes are replaced by the big-endian bytes of the quieted word. -/
def quietHeader (bs : List Byte) : List Byte :=
  binary.putUint 4 (quietNaN (bigEndian (bs.take 4))) ++ bs.drop 4

/-- The range of the Go type `int` (64 bits). -/
def isInt (v : Int) : Prop := -9223372036854775808 ≤ v ∧ v ≤ 9223372036854775807

instance (v : Int) : Decidable (isInt v) := inferInstanceAs (Decidable (_ ∧ _))

/-- The contract of `encoding/json` on `templateMarshaler`: a struct whose content is
lower-case hexadecimal text and whose count is an `int` is marshalled without error, and
unmarshalling the text gives the struct back. -/
def json.Library.Lawful (J : json.Library) : Prop :=
  ∀ d : templateMarshaler, (∀ c ∈ d.Content, c ∈ hex.hextable) → isInt d.Vals →
    ∃ data, J.Marshal d = (some data, none) ∧ J.Unmarshal data = .ok d

/-! ## Value reconstruction

The three `ReadAllData` methods are declared in package `gridpoint`, outside this source
file; they are modelled from sections 4.3 to 4.5 of the spec. The floating-point values
of the output and the arithmetic that makes them are a parameter: the model says which
integers are read, in which order and how many, and hands them to that arithmetic. -/

/-- Modelled from the spec: what sections 4.3 to 4.5 leave to IEEE arithmetic and what
section 9 leaves to the governing format specification. `F` is the type of the
floating-point values of the output. -/
structure Conventions (F : Type) where
  /-- The value `(R + X * 2^E) / 10^D` as the arithmetic computes it, from the words of the
  fields R, E and D of the header and the integer X. -/
  scale : (R E D : Nat) → (x : Int) → F
  /-- The signed integer held by a field of the given number of octets. -/
  signed : (octets : Nat) → (word : Nat) → Int
  /-- The substitute to output for an element of a group, given the octets of the header,
  the width and the reference of the group and the field read, when the missing-value
  mode designates the element as missing; `none` when it does not. -/
  substitute : (header : List Byte) → (width ref x : Nat) → Option F

namespace datapacking

/-- The bits of a byte, most significant first. -/
def byteBits (b : Byte) : List Bool :=
  (List.range 8).map (fun i => decide (b.val / 2 ^ (7 - i) % 2 = 1))

/-- The bits that a reader has not consumed yet. -/
def bitsOf (r : BitReader) : List Bool := r.buf.flatMap byteBits

/-- The unsigned integer held by a sequence of bits, most significant first. -/
def bitsValue (bits : List Bool) : Nat :=
  bits.foldl (fun acc b => 2 * acc + (if b then 1 else 0)) 0

/-- Modelled from the spec: the capability "read next N bits as unsigned integer" of the
bit reader (section 2), on the bits left: the integer and the bits left afterwards, or
`none` when fewer than `n` bits are left. A read of zero bits gives 0 and consumes nothing. -/
def readUint (n : Nat) (bits : List Bool) : Option (Nat × List Bool) :=
  if n ≤ bits.length then some (bitsValue (bits.take n), bits.drop n) else none

/-- The reading of `k` unsigned integers of `n` bits each, in sequence. -/
def readUints (n : Nat) : Nat → List Bool → Option (List Nat × List Bool)
  | 0, bits => some ([], bits)
  | k + 1, bits =>
    match readUint n bits with
    | none => none
    | some (x, rest) =>
      match readUints n k rest with
      | none => none
      | some (xs, rest2) => some (x :: xs, rest2)

end datapacking

namespace gridpoint

open datapacking (bitsOf readUint readUints)

/-- Modelled from the spec: the method `ReadAllData` of `gridpoint.SimplePacking`
(section 4.3): for each of `numVals` elements, an unsigned integer of N bits is read and
scaled; a count below zero reads nothing. Fewer bits than needed is an error and no
value is returned. The header fields are R, E, D and N in this order; R enters the
arithmetic as a floating-point value, so a signalling NaN enters it quieted. -/
def SimplePacking.ReadAllData {F : Type} (C : Conventions F) (p : SimplePacking)
    (r : BitReader) : Option (List F) × Option Error :=
  let h := Record.field definition.SimplePacking.layout p.tplDef
  match readUints (h 3) p.numVals.toNat (bitsOf r) with
  | none => (none, some .ErrUnexpectedEOF)
  | some (xs, _) =>
    (some (xs.map (fun (x : Nat) => C.scale (quietNaN (h 0)) (h 1) (h 2) (x : Int))), none)

/-- A group of Complex Packing: its reference value, its width in bits and its length. -/
structure Group where
  /-- The reference value of the group. -/
  ref : Nat
  /-- The width in bits of the elements of the group. -/
  width : Nat
  /-- The number of elements of the group. -/
  length : Nat
  deriving DecidableEq, Repr

/-- The groups made of their references, widths and lengths, in order. -/
def mkGroups : List Nat → List Nat → List Nat → List Group
  | r :: rs, w :: ws, l :: ls => ⟨r, w, l⟩ :: mkGroups rs ws ls
  | _, _, _ => []

/-- Modelled from the spec: steps 1 to 3 of section 4.4 on the fields of a Complex Packing
header: NG references of N bits, NG widths as increments over the reference for widths,
and the lengths as increments over the reference for lengths, scaled by the length
increment, the last one being the field of the header and not read. -/
def readGroups (h : Nat → Nat) (bits : List Bool) : Option (List Group × List Bool) :=
  match readUints (h 3) (h 9) bits with
  | none => none
  | some (refs, bits1) =>
    match readUints (h 11) (h 9) bits1 with
    | none => none
    | some (ws, bits2) =>
      match readUints (h 15) (h 9 - 1) bits2 with
      | none => none
      | some (ls, bits3) =>
        some (mkGroups refs (ws.map (fun x => h 10 + x))
          (ls.map (fun x => h 12 + x * h 13) ++ (if h 9 = 0 then [] else [h 14])), bits3)

/-- Modelled from the spec: step 4 of section 4.4, the reading of the elements: for each
group in order, as many fields as its length, each of its width, kept with their group. -/
def readElements : List Group → List Bool → Option (List (Group × Nat) × List Bool)
  | [], bits => some ([], bits)
  | g :: gs, bits =>
    match readUints g.width g.length bits with
    | none => none
    | some (xs, rest) =>
      match readElements gs rest with
      | none => none
      | some (ys, rest2) => some (xs.map (fun x => (g, x)) ++ ys, rest2)

/-- Modelled from the spec: the grouped integer fields of section 4.4, with the invariant
that the lengths of the groups sum to `numVals`: a mismatch is a fatal error. -/
def readGrouped (h : Nat → Nat) (numVals : Int) (bits : List Bool) :
    Option (List (Group × Nat)) × Option Error :=
  match readGroups h bits with
  | none => (none, some .ErrUnexpectedEOF)
  | some (groups, rest) =>
    if ((groups.map Group.length).sum : Int) = numVals then
      match readElements groups rest with
      | none => (none, some .ErrUnexpectedEOF)
      | some (elems, _) => (some elems, none)
    else (none, some (.errorf "group lengths do not sum to the number of values"))

/-- Modelled from the spec: the method `ReadAllData` of `gridpoint.ComplexPacking`
(section 4.4): each element is the substitute when it is designated as missing, and
`(R + (reference + X) * 2^E) / 10^D` otherwise. -/
def ComplexPacking.ReadAllData {F : Type} (C : Conventions F) (p : ComplexPacking)
    (r : BitReader) : Option (List F) × Option Error :=
  let h := Record.field definition.ComplexPacking.layout p.tplDef
  match readGrouped h p.numVals (bitsOf r) with
  | (some elems, none) =>
    (some (elems.map (fun e =>
      match C.substitute (binary.encode definition.ComplexPacking.layout p.tplDef)
          e.1.width e.1.ref e.2 with
      | some v => v
      | none => C.scale (quietNaN (h 0)) (h 1) (h 2) ((e.1.ref + e.2 : Nat) : Int))), none)
  | (_, err) => (none, err)

/-- The running sums of order 1 after a value `prev`: `g[i] = g[i-1] + x[i]`. -/
def undiff1 (prev : Int) : List Int → List Int
  | [] => []
  | x :: xs => (prev + x) :: undiff1 (prev + x) xs

/-- The running sums of order 2 after the values `prev2` and `prev1`:
`g[i] = 2 * g[i-1] - g[i-2] + x[i]`. -/
def undiff2 (prev2 prev1 : Int) : List Int → List Int
  | [] => []
  | x :: xs => (2 * prev1 - prev2 + x) :: undiff2 prev1 (2 * prev1 - prev2 + x) xs

/-- Modelled from the spec: the un-differencing of section 4.5. Position 0 (and position 1
at order 2) is a seed and consumes no group value; no other order is defined. -/
def undifference (order : Nat) (d1 d2 : Int) (xs : List Int) : Option (List Int) :=
  if order = 1 then
    match xs with
    | [] => some []
    | _ :: rest => some (d1 :: undiff1 d1 rest)
  else if order = 2 then
    match xs with
    | [] => some []
    | [_] => some [d1]
    | _ :: _ :: rest => some (d1 :: d2 :: undiff2 d1 d2 rest)
  else none

/-- Modelled from the spec: the method `ReadAllData` of
`gridpoint.ComplexPackingAndSpatialDifferencing` (section 4.5): the extra values are read
first (d1, then d2 at order 2, then the overall minimum, each a signed integer of the
stated number of octets), then the grouped integers, which are un-differenced; the
minimum is added and the scale formula applied. -/
def ComplexPackingAndSpatialDifferencing.ReadAllData {F : Type} (C : Conventions F)
    (p : ComplexPackingAndSpatialDifferencing) (r : BitReader) :
    Option (List F) × Option Error :=
  let h := Record.field definition.ComplexPackingAndSpatialDifferencing.layout p.tplDef
  match readUints (8 * h 17) (h 16 + 1) (bitsOf r) with
  | none => (none, some .ErrUnexpectedEOF)
  | some (extra, rest) =>
    match readGrouped h p.numVals rest with
    | (some elems, none) =>
      let d1 := C.signed (h 17) (extra.getD 0 0)
      let d2 := C.signed (h 17) (extra.getD 1 0)
      let minVal := C.signed (h 17) (extra.getD (h 16) 0)
      match undifference (h 16) d1 d2 (elems.map (fun e => ((e.1.ref + e.2 : Nat) : Int))) with
      | none => (none, some (.errorf "order of spatial differencing is not 1 or 2"))
      | some gs => (some (gs.map (fun g => C.scale (quietNaN (h 0)) (h 1) (h 2) (g + minVal))), none)
    | (_, err) => (none, err)

end gridpoint

/-- The method `ReadAllData` of a template: that of its packing, or, for a template of
another dynamic type, the method `foreign` of that type. -/
def Template.ReadAllData {F : Type} (C : Conventions F)
    (foreign : AnyValue → Int → BitReader → Option (List F) × Option Error)
    (t : Template) (r : BitReader) : Option (List F) × Option Error :=
  match t with
  | .SimplePacking p => p.ReadAllData C r
  | .ComplexPacking p => p.ReadAllData C r
  | .ComplexPackingAndSpatialDifferencing p => p.ReadAllData C r
  | .other d numVals => foreign d numVals r

/-- A value of the output as the formula that makes it, not evaluated: the words of R, E
and D and the integer X of `(R + X * 2^E) / 10^D`. -/
structure Formula where
  /-- The word of the reference value. -/
  R : Nat
  /-- The word of the binary scale factor. -/
  E : Nat
  /-- The word of the decimal scale factor. -/
  D : Nat
  /-- The integer that is scaled. -/
  X : Int
  deriving DecidableEq, Repr

/-- The conventions under which every value is kept as its formula, integers are in
two-complement and no element is missing. -/
def Conventions.symbolic : Conventions Formula where
  scale := fun R E D x => ⟨R, E, D, x⟩
  signed := fun octets word =>
    if word % 256 ^ octets < 256 ^ octets / 2 then (word % 256 ^ octets : Nat)
    else (word % 256 ^ octets : Nat) - (256 ^ octets : Nat)
  substitute := fun _ _ _ _ => none

/-! ## Big-endian words and records: lemmas -/

theorem quietNaN_of_not (w : Nat) (h : ¬ isSignallingNaN w) : quietNaN w = w := by
  simp [quietNaN, h]

theorem quietNaN_idem (w : Nat) : quietNaN (quietNaN w) = quietNaN w := by
  by_cases h : isSignallingNaN w
  · have h2 : ¬ isSignallingNaN (w + 2 ^ 22) := by
      obtain ⟨-, -, h3⟩ := h
      rintro ⟨-, -, h4⟩
      norm_num at h3 h4
      omega
    rw [quietNaN_of_not (quietNaN w)]
    unfold quietNaN
    rw [if_pos h]
    exact h2
  · rw [quietNaN_of_not w h, quietNaN_of_not w h]

theorem quietNaN_lt (w : Nat) (h : w < 256 ^ 4) : quietNaN w < 256 ^ 4 := by
  by_cases hs : isSignallingNaN w
  · unfold quietNaN
    rw [if_pos hs]
    obtain ⟨h1, -, h3⟩ := hs
    norm_num at h1 h3 h ⊢
    omega
  · rw [quietNaN_of_not w hs]; exact h

theorem FieldType.convert_idem (f : FieldType) (w : Nat) :
    f.convert (f.convert w) = f.convert w := by
  cases f with
  | int s => rfl
  | float32 => exact quietNaN_idem w

theorem FieldType.convert_lt (f : FieldType) (w : Nat) (h : w < 256 ^ f.size) :
    f.convert w < 256 ^ f.size := by
  cases f with
  | int s => exact h
  | float32 => exact quietNaN_lt w h

namespace binary

theorem putUint_length (w v : Nat) : (putUint w v).length = w := by
  induction w with
  | zero => rfl
  | succ w ih => simp [putUint, ih]

theorem getUint_lt (bs : List Byte) : getUint bs < 256 ^ bs.length := by
  induction bs with
  | nil => simp [getUint]
  | cons b bs ih =>
    have hb := b.isLt
    simp only [getUint, List.length_cons, pow_succ]
    nlinarith [Nat.pow_pos (n := bs.length) (show 0 < 256 by decide)]

theorem getUint_putUint (w v : Nat) : getUint (putUint w v) = v % 256 ^ w := by
  induction w with
  | zero => simp [putUint, getUint, Nat.mod_one]
  | succ w ih =>
    simp only [putUint, getUint, putUint_length, ih]
    rw [Nat.mod_pow_succ]
    ring

theorem putUint_add_mul (w v k : Nat) : putUint w (v + k * 256 ^ w) = putUint w v := by
  induction w generalizing k with
  | zero => rfl
  | succ w ih =>
    have hpos : 0 < 256 ^ w := Nat.pow_pos (by decide)
    have e : v + k * 256 ^ (w + 1) = v + (k * 256) * 256 ^ w := by ring
    simp only [putUint]
    congr 1
    · apply Fin.ext
      show (v + k * 256 ^ (w + 1)) / 256 ^ w % 256 = v / 256 ^ w % 256
      rw [e, Nat.add_mul_div_right _ _ hpos, Nat.add_mul_mod_self_right]
    · rw [e, ih (k * 256)]

theorem putUint_getUint (bs : List Byte) : putUint bs.length (getUint bs) = bs := by
  induction bs with
  | nil => rfl
  | cons b bs ih =>
    have hpos : 0 < 256 ^ bs.length := Nat.pow_pos (by decide)
    have hlt := getUint_lt bs
    simp only [List.length_cons, putUint, getUint]
    have e : b.val * 256 ^ bs.length + getUint bs = getUint bs + b.val * 256 ^ bs.length := by ring
    congr 1
    · apply Fin.ext
      show (b.val * 256 ^ bs.length + getUint bs) / 256 ^ bs.length % 256 = b.val
      rw [e, Nat.add_mul_div_right _ _ hpos, Nat.div_eq_of_lt hlt, Nat.zero_add,
        Nat.mod_eq_of_lt b.isLt]
    · rw [e, putUint_add_mul, ih]

/-- The word of `getUint` is the big-endian word by Horner. -/
theorem getUint_eq_bigEndian (bs : List Byte) : getUint bs = bigEndian bs := by
  have key : ∀ (bs : List Byte) (acc : Nat),
      bs.foldl (fun acc b => acc * 256 + b.val) acc = acc * 256 ^ bs.length + getUint bs := by
    intro bs
    induction bs with
    | nil => intro acc; simp [getUint]
    | cons b bs ih =>
      intro acc
      simp only [List.foldl_cons, ih, getUint, List.length_cons, pow_succ]
      ring
  simp [bigEndian, key]

theorem encode_length : ∀ (layout : List FieldType) (rec : Record layout),
    (encode layout rec).length = dataSize layout
  | [], _ => rfl
  | f :: fs, (v, rest) => by
    simp [encode, dataSize, putUint_length, encode_length fs rest]

theorem decode_encode_append : ∀ (layout : List FieldType) (rec : Record layout)
    (tail : List Byte), decode layout (encode layout rec ++ tail) = Record.quieted layout rec
  | [], _, _ => rfl
  | f :: fs, (v, rest), tail => by
    have h1 : (putUint f.size (f.convert v.val) ++ encode fs rest ++ tail).take f.size =
        putUint f.size (f.convert v.val) := by
      rw [List.append_assoc, List.take_left' (putUint_length _ _)]
    have h2 : (putUint f.size (f.convert v.val) ++ encode fs rest ++ tail).drop f.size =
        encode fs rest ++ tail := by
      rw [List.append_assoc, List.drop_left' (putUint_length _ _)]
    have hlt := FieldType.convert_lt f v.val v.isLt
    simp only [encode, decode, Record.quieted, h1, h2, decode_encode_append fs rest tail,
      getUint_putUint]
    congr 1
    apply Fin.ext
    simp only [Nat.mod_eq_of_lt hlt, FieldType.convert_idem]

theorem encode_quieted : ∀ (layout : List FieldType) (rec : Record layout),
    encode layout (Record.quieted layout rec) = encode layout rec
  | [], _ => rfl
  | f :: fs, (v, rest) => by
    have hlt := FieldType.convert_lt f v.val v.isLt
    simp only [encode, Record.quieted, encode_quieted fs rest, Nat.mod_eq_of_lt hlt,
      FieldType.convert_idem]

/-- A record comes back quieted from its encoding. -/
theorem decode_take_encode (layout : List FieldType) (rec : Record layout) :
    decode layout ((encode layout rec).take (dataSize layout)) = Record.quieted layout rec := by
  have h := decode_encode_append layout rec []
  rw [List.append_nil] at h
  rw [List.take_of_length_le (by rw [encode_length]), h]


theorem quieted_ints : ∀ (layout : List FieldType), (∀ f ∈ layout, f ≠ FieldType.float32) →
    ∀ rec : Record layout, Record.quieted layout rec = rec
  | [], _, _ => rfl
  | f :: fs, h, (v, rest) => by
    have hf : f ≠ FieldType.float32 := h f (List.mem_cons_self _ _)
    have hfs : ∀ g ∈ fs, g ≠ FieldType.float32 := fun g hg => h g (List.mem_cons_of_mem _ hg)
    simp only [Record.quieted, quieted_ints fs hfs rest]
    congr 1
    apply Fin.ext
    cases f with
    | int s => exact Nat.mod_eq_of_lt v.isLt
    | float32 => exact absurd rfl hf

theorem encode_decode : ∀ (layout : List FieldType) (buf : List Byte),
    (∀ f ∈ layout, f ≠ FieldType.float32) → dataSize layout ≤ buf.length →
    encode layout (decode layout buf) = buf.take (dataSize layout)
  | [], _, _, _ => by simp [encode, dataSize]
  | f :: fs, buf, hi, h => by
    have hf : f ≠ FieldType.float32 := hi f (List.mem_cons_self _ _)
    have hfs : ∀ g ∈ fs, g ≠ FieldType.float32 := fun g hg => hi g (List.mem_cons_of_mem _ hg)
    have hsum : dataSize (f :: fs) = f.size + dataSize fs := by simp [dataSize]
    rw [hsum] at h ⊢
    have hlen : (buf.take f.size).length = f.size := by simp; omega
    have hrest : dataSize fs ≤ (buf.drop f.size).length := by simp; omega
    have hlt : getUint (buf.take f.size) < 256 ^ f.size := by
      have := getUint_lt (buf.take f.size); rwa [hlen] at this
    have hc : ∀ w, f.convert w = w := by
      intro w
      cases f with
      | int s => rfl
      | float32 => exact absurd rfl hf
    simp only [decode, encode, hc]
    rw [Nat.mod_eq_of_lt hlt, Nat.mod_eq_of_lt hlt]
    have := putUint_getUint (buf.take f.size)
    rw [hlen] at this
    rw [this, encode_decode fs (buf.drop f.size) hfs hrest, ← List.take_add]

/-- Re-encoding a decoded header whose first field is a float32: the bytes read, with a
signalling NaN in the first word quieted. -/
theorem encode_decode_header (layout : List FieldType) (buf : List Byte)
    (hi : ∀ f ∈ layout, f ≠ FieldType.float32)
    (h : dataSize (FieldType.float32 :: layout) ≤ buf.length) :
    encode (FieldType.float32 :: layout) (decode (FieldType.float32 :: layout) buf) =
      quietHeader (buf.take (dataSize (FieldType.float32 :: layout))) := by
  have hsum : dataSize (FieldType.float32 :: layout) = 4 + dataSize layout := by
    simp [dataSize, FieldType.size]
  rw [hsum] at h ⊢
  have hlen : (buf.take 4).length = 4 := by simp; omega
  have hrest : dataSize layout ≤ (buf.drop 4).length := by simp; omega
  have hlt : getUint (buf.take 4) < 256 ^ 4 := by
    have := getUint_lt (buf.take 4); rwa [hlen] at this
  have hq := quietNaN_lt _ hlt
  simp only [decode, encode, FieldType.size, FieldType.convert]
  rw [Nat.mod_eq_of_lt hlt, Nat.mod_eq_of_lt hq, quietNaN_idem,
    encode_decode layout (buf.drop 4) hi hrest]
  simp only [quietHeader, List.take_take, ← getUint_eq_bigEndian]
  rw [Nat.min_eq_left (Nat.le_add_right 4 _), List.drop_take]
  simp

/-- A header whose first word is no signalling NaN is left as it is. -/
theorem quietHeader_of_not (bs : List Byte) (h4 : 4 ≤ bs.length)
    (h : ¬ isSignallingNaN (bigEndian (bs.take 4))) : quietHeader bs = bs := by
  have hlen : (bs.take 4).length = 4 := by simp; omega
  have := putUint_getUint (bs.take 4)
  rw [hlen, getUint_eq_bigEndian] at this
  rw [quietHeader, quietNaN_of_not _ h, this, List.take_append_drop]

theorem quietHeader_length (bs : List Byte) (h4 : 4 ≤ bs.length) :
    (quietHeader bs).length = bs.length := by
  simp [quietHeader, putUint_length]; omega

theorem dataSize_cons (f : FieldType) (fs : List FieldType) :
    dataSize (f :: fs) = f.size + dataSize fs := by
  simp [dataSize]

/-- A field of a decoded record: the big-endian word of its bytes, through the conversion
of its type. -/
theorem field_decode : ∀ (layout : List FieldType) (buf : List Byte) (i : Nat),
    i < layout.length → dataSize layout ≤ buf.length →
    Record.field layout (decode layout buf) i =
      (layout.getD i (FieldType.int 0)).convert
        (bigEndian ((buf.drop (dataSize (layout.take i))).take
          (layout.getD i (FieldType.int 0)).size))
  | [], _, _, hi, _ => by simp at hi
  | f :: fs, buf, 0, _, h => by
    rw [dataSize_cons] at h
    have hlen : (buf.take f.size).length = f.size := by simp; omega
    have hlt : getUint (buf.take f.size) < 256 ^ f.size := by
      have := getUint_lt (buf.take f.size); rwa [hlen] at this
    have hq := FieldType.convert_lt f _ hlt
    simp only [decode, Record.field, List.take_zero, List.getD_cons_zero]
    rw [Nat.mod_eq_of_lt hlt, Nat.mod_eq_of_lt hq, getUint_eq_bigEndian]
    simp [dataSize]
  | f :: fs, buf, i + 1, hi, h => by
    rw [dataSize_cons] at h
    have hi2 : i < fs.length := by simpa using hi
    have hrest : dataSize fs ≤ (buf.drop f.size).length := by simp; omega
    simp only [decode, Record.field, List.take_succ_cons, List.getD_cons_succ, dataSize_cons]
    rw [field_decode fs (buf.drop f.size) i hi2 hrest, List.drop_drop]

end binary



theorem headerLen_values : headerLen 0 = 10 ∧ headerLen 2 = 36 ∧ headerLen 3 = 38 := by
  decide

theorem ioReadFull_of_le (r : Reader) (n : Nat) (h : n ≤ r.buf.length) :
    ioReadFull r n = ((r.buf.take n, none), ⟨r.buf.drop n⟩) := by
  simp [ioReadFull, h]

theorem ioReadFull_of_lt (r : Reader) (n : Nat) (h : r.buf.length < n) :
    ioReadFull r n =
      ((r.buf, some (if r.buf = [] then Error.EOF else Error.ErrUnexpectedEOF)), ⟨[]⟩) := by
  have h1 : ¬ n ≤ r.buf.length := by omega
  obtain ⟨buf⟩ := r
  cases buf with
  | nil => simp [ioReadFull] at h ⊢; omega
  | cons b bs => simp [ioReadFull] at h ⊢; omega

theorem binary.Read_of_le (r : Reader) (layout : List FieldType) (h : binary.dataSize layout ≤ r.buf.length) :
    binary.Read r layout =
      (.ok (binary.decode layout (r.buf.take (binary.dataSize layout))),
        ⟨r.buf.drop (binary.dataSize layout)⟩) := by
  simp [binary.Read, ioReadFull_of_le r _ h]

theorem binary.Read_of_lt (r : Reader) (layout : List FieldType) (h : r.buf.length < binary.dataSize layout) :
    binary.Read r layout =
      (.error (if r.buf = [] then Error.EOF else Error.ErrUnexpectedEOF), ⟨[]⟩) := by
  simp [binary.Read, ioReadFull_of_lt r _ h]


/-! ## Hexadecimal text: lemmas -/

namespace hex

theorem fromHexChar_hextable : ∀ i : Fin 16, fromHexChar (hextable.getD i.val 0) = some i.val := by
  decide

theorem hextable_mem : ∀ i : Fin 16, hextable.getD i.val 0 ∈ hextable := by
  decide

theorem hextable_eq : hextable =
    [48, 49, 50, 51, 52, 53, 54, 55, 56, 57, 97, 98, 99, 100, 101, 102] := by
  decide

theorem fromHexChar_of_mem (c : Byte) (h : c ∈ hextable) : fromHexChar c ≠ none := by
  rw [hextable_eq] at h
  simp only [List.mem_cons, List.mem_nil_iff, or_false] at h
  rcases h with h | h | h | h | h | h | h | h | h | h | h | h | h | h | h | h <;>
    (subst h; decide)

theorem EncodeToString_length (src : List Byte) :
    (EncodeToString src).length = 2 * src.length := by
  induction src with
  | nil => rfl
  | cons v src ih => simp [EncodeToString, ih]; omega

theorem EncodeToString_mem (src : List Byte) : ∀ c ∈ EncodeToString src, c ∈ hextable := by
  induction src with
  | nil => simp [EncodeToString]
  | cons v src ih =>
    intro c hc
    simp only [EncodeToString, List.mem_cons] at hc
    have h1 : v.val / 16 < 16 := by have := v.isLt; omega
    have h2 : v.val % 16 < 16 := Nat.mod_lt _ (by decide)
    rcases hc with rfl | rfl | hc
    · exact hextable_mem ⟨_, h1⟩
    · exact hextable_mem ⟨_, h2⟩
    · exact ih c hc

theorem Decode_EncodeToString (src : List Byte) : Decode (EncodeToString src) = (src, none) := by
  induction src with
  | nil => rfl
  | cons v src ih =>
    have h1 : v.val / 16 < 16 := by have := v.isLt; omega
    have h2 : v.val % 16 < 16 := Nat.mod_lt _ (by decide)
    have e1 := fromHexChar_hextable ⟨_, h1⟩
    have e2 := fromHexChar_hextable ⟨_, h2⟩
    simp only [EncodeToString, Decode, e1, e2, ih]
    congr 2
    apply Fin.ext
    show (v.val / 16 * 16 + v.val % 16) % 256 = v.val
    have := v.isLt
    omega

theorem Decode_odd : ∀ s : List Byte, s.length % 2 = 1 → (Decode s).2 ≠ none
  | [], h => by simp at h
  | [c], _ => by
    simp only [Decode]
    cases fromHexChar c <;> simp
  | p :: q :: s, h => by
    have ih := Decode_odd s (by simp only [List.length_cons] at h; omega)
    simp only [Decode]
    cases fromHexChar p with
    | none => simp
    | some a =>
      cases fromHexChar q with
      | none => simp
      | some b => simpa using ih

theorem Decode_invalid : ∀ s : List Byte, (∃ c ∈ s, fromHexChar c = none) → (Decode s).2 ≠ none
  | [], h => by simp at h
  | [c], h => by
    simp only [Decode]
    cases fromHexChar c <;> simp
  | p :: q :: s, h => by
    simp only [Decode]
    cases hp : fromHexChar p with
    | none => simp
    | some a =>
      cases hq : fromHexChar q with
      | none => simp
      | some b =>
        obtain ⟨c, hc, hcn⟩ := h
        simp only [List.mem_cons] at hc
        rcases hc with rfl | rfl | hc
        · rw [hp] at hcn; cases hcn
        · rw [hq] at hcn; cases hcn
        · simpa using Decode_invalid s ⟨c, hc, hcn⟩

theorem Decode_valid : ∀ s : List Byte, s.length % 2 = 0 → (∀ c ∈ s, fromHexChar c ≠ none) →
    (Decode s).2 = none ∧ 2 * (Decode s).1.length = s.length
  | [], _, _ => by simp [Decode]
  | [c], h, _ => by simp at h
  | p :: q :: s, h, hv => by
    have ih := Decode_valid s (by simp only [List.length_cons] at h; omega)
      (fun c hc => hv c (by simp [hc]))
    simp only [Decode]
    cases hp : fromHexChar p with
    | none => exact absurd hp (hv p (by simp))
    | some a =>
      cases hq : fromHexChar q with
      | none => exact absurd hq (hv q (by simp))
      | some b => simp [ih.1]; omega

theorem Decode_length : ∀ s : List Byte, (Decode s).2 = none → 2 * (Decode s).1.length = s.length
  | [], _ => by simp [Decode]
  | [c], h => by
    simp only [Decode] at h
    cases hc : fromHexChar c <;> simp [hc] at h
  | p :: q :: s, h => by
    simp only [Decode] at h ⊢
    cases hp : fromHexChar p with
    | none => simp [hp] at h
    | some a =>
      cases hq : fromHexChar q with
      | none => simp [hp, hq] at h
      | some b =>
        simp only [hp, hq] at h
        have := Decode_length s h
        simp; omega

end hex

/-! ## The reference JSON library: lemmas -/

namespace json

theorem byteOf_digitChar : ∀ k : Fin 10, (byteOf (Nat.digitChar k.val)).val = 48 + k.val := by
  decide

theorem digitsValue_append (a : List Byte) (d : Byte) :
    digitsValue (a ++ [d]) = digitsValue a * 10 + (d.val - 48) := by
  simp [digitsValue, List.foldl_append]

/-- The decimal digits that `Nat.toDigitsCore` puts in front of its accumulator. -/
theorem toDigitsCore_spec : ∀ (fuel n : Nat) (ds : List Char), n < fuel →
    ∃ pre : List Char, Nat.toDigitsCore 10 fuel n ds = pre ++ ds ∧
      (∀ c ∈ pre, isDigit (byteOf c) = true) ∧
      digitsValue (pre.map byteOf) = n ∧
      validDigits (pre.map byteOf) = true
  | 0, _, _, h => absurd h (Nat.not_lt_zero _)
  | fuel + 1, n, ds, h => by
    have hk : n % 10 < 10 := Nat.mod_lt _ (by decide)
    have hd := byteOf_digitChar ⟨n % 10, hk⟩
    simp only at hd
    have hdig : isDigit (byteOf (Nat.digitChar (n % 10))) = true := by
      simp [isDigit, hd]; omega
    by_cases h0 : n / 10 = 0
    · refine ⟨[Nat.digitChar (n % 10)], ?_, ?_, ?_, ?_⟩
      · simp [Nat.toDigitsCore, h0]
      · intro c hc
        simp only [List.mem_singleton] at hc
        subst hc
        exact hdig
      · simp [digitsValue, hd]
        omega
      · rfl
    · have hlt : n / 10 < fuel := by omega
      obtain ⟨pre, hpre, hall, hval, hvalid⟩ :=
        toDigitsCore_spec fuel (n / 10) (Nat.digitChar (n % 10) :: ds) hlt
      refine ⟨pre ++ [Nat.digitChar (n % 10)], ?_, ?_, ?_, ?_⟩
      · simp [Nat.toDigitsCore, h0, hpre]
      · intro c hc
        simp only [List.mem_append, List.mem_singleton] at hc
        rcases hc with hc | rfl
        · exact hall c hc
        · exact hdig
      · rw [List.map_append, List.map_singleton, digitsValue_append, hval, hd]
        omega
      · -- the leading digit is the leading digit of `n / 10`, which is not zero
        cases pre with
        | nil => simp [digitsValue] at hval; omega
        | cons c pre =>
          cases pre with
          | nil =>
            simp only [List.map_cons, List.map_nil, digitsValue, List.foldl_cons,
              List.foldl_nil] at hval
            have hc := hall c (by simp)
            simp only [isDigit, Bool.and_eq_true, decide_eq_true_eq] at hc
            simp only [List.cons_append, List.nil_append, List.map_cons, List.map_nil,
              validDigits, bne_iff_ne, ne_eq]
            intro hbad
            rw [hbad] at hval
            simp at hval
            omega
          | cons c2 pre =>
            simpa [validDigits] using hvalid

theorem repr_spec (n : Nat) :
    (∀ c ∈ ascii (Nat.repr n), isDigit c = true) ∧
      digitsValue (ascii (Nat.repr n)) = n ∧ validDigits (ascii (Nat.repr n)) = true := by
  obtain ⟨pre, hpre, hall, hval, hvalid⟩ := toDigitsCore_spec (n + 1) n [] (Nat.lt_succ_self n)
  have e : ascii (Nat.repr n) = pre.map byteOf := by
    simp [ascii, Nat.repr, Nat.toDigits, hpre, List.asString]
  rw [e]
  refine ⟨?_, hval, hvalid⟩
  intro c hc
  obtain ⟨c0, hc0, rfl⟩ := List.mem_map.1 hc
  exact hall c0 hc0

theorem lex_digits : ∀ (ds acc : List Byte) (neg : Bool) (toks : List Token) (rest : List Byte),
    (∀ d ∈ ds, isDigit d = true) →
    lex (.inNum neg acc) toks (ds ++ rest) = lex (.inNum neg (acc ++ ds)) toks rest
  | [], acc, neg, toks, rest, _ => by simp
  | d :: ds, acc, neg, toks, rest, h => by
    have hd : isDigit d = true := h d (by simp)
    have ih := lex_digits ds (acc ++ [d]) neg toks rest (fun x hx => h x (by simp [hx]))
    simp only [List.cons_append, lex, hd, if_true]
    have e : acc ++ d :: ds = acc ++ [d] ++ ds := by simp
    rw [e]
    exact ih

theorem lexGap_digit (toks : List Token) (d : Byte) (h : isDigit d = true) :
    lexGap toks d = some (.inNum false [d], toks) := by
  obtain ⟨v, hv⟩ := d
  simp only [isDigit, Bool.and_eq_true, decide_eq_true_eq] at h
  obtain ⟨h1, h2⟩ := h
  interval_cases v <;> rfl

/-- A number followed by a comma. -/
theorem lex_num_comma (neg : Bool) (acc : List Byte) (toks : List Token) (rest : List Byte)
    (hv : validDigits acc = true) :
    lex (.inNum neg acc) toks (byteOf ',' :: rest) =
      lex .gap (.comma :: .num neg acc :: toks) rest := by
  simp only [lex, hv, if_true]
  rfl

/-- A number followed by a closing brace. -/
theorem lex_num_rbrace (neg : Bool) (acc : List Byte) (toks : List Token) (rest : List Byte)
    (hv : validDigits acc = true) :
    lex (.inNum neg acc) toks (byteOf '\x7d' :: rest) =
      lex .gap (.rbrace :: .num neg acc :: toks) rest := by
  simp only [lex, hv, if_true]
  rfl

theorem hex_char_plain (c : Byte) (h : c ∈ hex.hextable) :
    c ≠ byteOf '"' ∧ c ≠ byteOf '\\' ∧ ¬ (c.val < 32 ∨ 128 ≤ c.val) ∧ escapeByte c = [c] := by
  rw [hex.hextable_eq] at h
  simp only [List.mem_cons, List.mem_nil_iff, or_false] at h
  rcases h with h | h | h | h | h | h | h | h | h | h | h | h | h | h | h | h <;>
    (subst h; decide)

theorem lex_str : ∀ (s acc : List Byte) (toks : List Token) (rest : List Byte),
    (∀ c ∈ s, c ∈ hex.hextable) →
    lex (.inStr acc) toks (s ++ byteOf '"' :: rest) = lex .gap (.str (acc ++ s) :: toks) rest
  | [], acc, toks, rest, _ => by simp [lex]
  | c :: s, acc, toks, rest, h => by
    obtain ⟨h1, h2, h3, -⟩ := hex_char_plain c (h c (by simp))
    have ih := lex_str s (acc ++ [c]) toks rest (fun x hx => h x (by simp [hx]))
    simp only [List.cons_append, lex, h1, h2, h3, if_false]
    have e : acc ++ c :: s = acc ++ [c] ++ s := by simp
    rw [e]
    exact ih

theorem quote_hex (s : List Byte) (h : ∀ c ∈ s, c ∈ hex.hextable) :
    quote s = byteOf '"' :: (s ++ [byteOf '"']) := by
  have e : s.flatMap escapeByte = s := by
    induction s with
    | nil => rfl
    | cons c s ih =>
      rw [List.flatMap_cons, (hex_char_plain c (h c (by simp))).2.2.2,
        ih (fun x hx => h x (by simp [hx]))]
      rfl
  simp [quote, e]

theorem lex_gap_number (ds : List Byte) (toks : List Token) (rest : List Byte)
    (hall : ∀ d ∈ ds, isDigit d = true) (hv : validDigits ds = true) :
    lex .gap toks (ds ++ rest) = lex (.inNum false ds) toks rest := by
  cases ds with
  | nil => simp [validDigits] at hv
  | cons d ds =>
    have hd := lexGap_digit toks d (hall d (by simp))
    simp only [List.cons_append, lex, hd]
    exact lex_digits ds [d] false toks rest (fun x hx => hall x (by simp [hx]))

theorem lex_gap_int (v : Int) (toks : List Token) (rest : List Byte) :
    lex .gap toks (formatInt v ++ rest) =
      lex (.inNum (decide (v < 0)) (ascii (Nat.repr v.natAbs))) toks rest := by
  obtain ⟨hall, -, hvalid⟩ := repr_spec v.natAbs
  by_cases h : v < 0
  · simp only [formatInt, h, if_true, List.cons_append, decide_True]
    have e : lex .gap toks (byteOf '-' :: (ascii (Nat.repr v.natAbs) ++ rest)) =
        lex (.inNum true []) toks (ascii (Nat.repr v.natAbs) ++ rest) := rfl
    rw [e, lex_digits _ _ _ _ _ hall]
    rfl
  · have e : v.toNat = v.natAbs := by omega
    simp only [formatInt, h, if_false, decide_False, e]
    exact lex_gap_number _ _ _ hall hvalid

theorem lex_marshalText (t : templateMarshaler) (h : ∀ c ∈ t.Content, c ∈ hex.hextable) :
    lex .gap [] (marshalText t) =
      some [.rbrace, .num (decide (t.Vals < 0)) (ascii (Nat.repr t.Vals.natAbs)), .colon,
        .str (ascii "vals"), .comma, .str t.Content, .colon, .str (ascii "content"), .comma,
        .num false (ascii (Nat.repr t.Number.val)), .colon, .str (ascii "number"), .lbrace] := by
  obtain ⟨hall, -, hvalid⟩ := repr_spec t.Number.val
  obtain ⟨-, -, hvalid2⟩ := repr_spec t.Vals.natAbs
  have e1 : ∀ X toks, lex .gap toks (ascii "\x7b\"number\":" ++ X) =
      lex .gap (.colon :: .str (ascii "number") :: .lbrace :: toks) X := fun _ _ => rfl
  have e2 : ∀ X toks, lex .gap toks (ascii "\"content\":" ++ X) =
      lex .gap (.colon :: .str (ascii "content") :: toks) X := fun _ _ => rfl
  have e3 : ∀ X toks, lex .gap toks (ascii ",\"vals\":" ++ X) =
      lex .gap (.colon :: .str (ascii "vals") :: .comma :: toks) X := fun _ _ => rfl
  have e4 : ∀ X toks, lex .gap toks (byteOf '"' :: X) = lex (.inStr []) toks X := fun _ _ => rfl
  have s1 : ascii ",\"content\":" = byteOf ',' :: ascii "\"content\":" := rfl
  have s2 : ascii "\x7d" = [byteOf '\x7d'] := rfl
  simp only [marshalText, List.append_assoc]
  rw [e1, lex_gap_number _ _ _ hall hvalid, s1, List.cons_append, lex_num_comma _ _ _ _ hvalid,
    e2, quote_hex _ h, List.cons_append, e4, List.append_assoc, List.singleton_append,
    lex_str _ _ _ _ h, e3, lex_gap_int, s2, lex_num_rbrace _ _ _ _ hvalid2]
  rfl

theorem unmarshalText_marshalText (t : templateMarshaler)
    (h : ∀ c ∈ t.Content, c ∈ hex.hextable) (hv : isInt t.Vals) :
    unmarshalText (marshalText t) = .ok t := by
  obtain ⟨-, hval, -⟩ := repr_spec t.Number.val
  obtain ⟨-, hval2, -⟩ := repr_spec t.Vals.natAbs
  have k1 : (ascii "number").map lower = ascii "number" := by decide
  have k2 : (ascii "content").map lower = ascii "content" := by decide
  have k3 : (ascii "vals").map lower = ascii "vals" := by decide
  have n2 : ¬ (ascii "content" = ascii "number") := by decide
  have n3 : ¬ (ascii "vals" = ascii "number") := by decide
  have n4 : ¬ (ascii "vals" = ascii "content") := by decide
  have hi : (if decide (t.Vals < 0) = true then -((t.Vals.natAbs : Nat) : Int)
      else ((t.Vals.natAbs : Nat) : Int)) = t.Vals := by
    by_cases h0 : t.Vals < 0
    · simp only [h0, decide_True, if_true]; omega
    · simp only [h0, decide_False, Bool.false_eq_true, if_false]; omega
  have hl := lex_marshalText t h
  have hv2 : (-9223372036854775808 ≤ t.Vals ∧ t.Vals ≤ 9223372036854775807) := hv
  have hlt := t.Number.isLt
  simp only [unmarshalText, hl, List.reverse_cons, List.reverse_nil,
    List.nil_append, List.cons_append, members, assign, k1, k2, k3, n2, n3, n4, if_true,
    if_false, hval, hval2, hlt, dite_true, hi, hv2, and_self]

theorem reference_lawful : reference.Lawful := by
  intro d h hv
  exact ⟨marshalText d, rfl, unmarshalText_marshalText d h hv⟩

end json

/-! ## The registry and the codec: lemmas -/

/-- The default path of `ReadTemplate`. -/
theorem ReadTemplate_default (r : BitReader) (n : TemplateNumber) (numVals : Int)
    (h0 : n ≠ 0) (h2 : n ≠ 2) (h3 : n ≠ 3) :
    ReadTemplate r n numVals =
      ((none, some (Error.errorf ("data template not implemented: " ++ Nat.repr n.val))), r) := by
  simp [ReadTemplate, GridPointDataSimplePacking, GridPointDataComplexPacking,
    GridPointDataComplexPackingAndSpatialDifferencing, h0, h2, h3]

/-- The path of `ReadTemplate` for Simple Packing when the header is there. -/
theorem ReadTemplate_zero_of_le (r : BitReader) (numVals : Int)
    (h : binary.dataSize definition.SimplePacking.layout ≤ r.buf.length) :
    ReadTemplate r 0 numVals =
      ((some (.SimplePacking ⟨binary.decode definition.SimplePacking.layout
        (r.buf.take (binary.dataSize definition.SimplePacking.layout)), numVals⟩), none),
        ⟨r.buf.drop (binary.dataSize definition.SimplePacking.layout)⟩) := by
  simp [ReadTemplate, GridPointDataSimplePacking, binary.Read_of_le r _ h]
  rfl

/-- The path of `ReadTemplate` for Complex Packing when the header is there. -/
theorem ReadTemplate_two_of_le (r : BitReader) (numVals : Int)
    (h : binary.dataSize definition.ComplexPacking.layout ≤ r.buf.length) :
    ReadTemplate r 2 numVals =
      ((some (.ComplexPacking ⟨binary.decode definition.ComplexPacking.layout
        (r.buf.take (binary.dataSize definition.ComplexPacking.layout)), numVals⟩), none),
        ⟨r.buf.drop (binary.dataSize definition.ComplexPacking.layout)⟩) := by
  simp [ReadTemplate, GridPointDataSimplePacking, GridPointDataComplexPacking,
    binary.Read_of_le r _ h]
  rfl

/-- The path of `ReadTemplate` for Complex Packing and Spatial Differencing when the
header is there. -/
theorem ReadTemplate_three_of_le (r : BitReader) (numVals : Int)
    (h : binary.dataSize definition.ComplexPackingAndSpatialDifferencing.layout ≤ r.buf.length) :
    ReadTemplate r 3 numVals =
      ((some (.ComplexPackingAndSpatialDifferencing
        ⟨binary.decode definition.ComplexPackingAndSpatialDifferencing.layout
          (r.buf.take (binary.dataSize definition.ComplexPackingAndSpatialDifferencing.layout)),
          numVals⟩), none),
        ⟨r.buf.drop (binary.dataSize definition.ComplexPackingAndSpatialDifferencing.layout)⟩) := by
  simp [ReadTemplate, GridPointDataSimplePacking, GridPointDataComplexPacking,
    GridPointDataComplexPackingAndSpatialDifferencing, binary.Read_of_le r _ h]
  rfl

/-- The three paths of `ReadTemplate` when the header is cut short. -/
theorem ReadTemplate_of_lt (r : BitReader) (n : TemplateNumber) (numVals : Int)
    (hn : n = 0 ∨ n = 2 ∨ n = 3) (hlen : r.buf.length < headerLen n) :
    ReadTemplate r n numVals =
      ((none, some (if r.buf = [] then Error.EOF else Error.ErrUnexpectedEOF)), ⟨[]⟩) := by
  rcases hn with rfl | rfl | rfl
  · have h : r.buf.length < binary.dataSize definition.SimplePacking.layout := hlen
    simp [ReadTemplate, GridPointDataSimplePacking, binary.Read_of_lt r _ h]
  · have h : r.buf.length < binary.dataSize definition.ComplexPacking.layout := hlen
    simp [ReadTemplate, GridPointDataSimplePacking, GridPointDataComplexPacking,
      binary.Read_of_lt r _ h]
  · have h : r.buf.length < binary.dataSize definition.ComplexPackingAndSpatialDifferencing.layout :=
      hlen
    simp [ReadTemplate, GridPointDataSimplePacking, GridPointDataComplexPacking,
      GridPointDataComplexPackingAndSpatialDifferencing, binary.Read_of_lt r _ h]

/-- What `ReadTemplate` returns is a template without an error or an error without a
template. -/
theorem ReadTemplate_shape (r : BitReader) (n : TemplateNumber) (numVals : Int) :
    (∃ t, (ReadTemplate r n numVals).1 = (some t, none)) ∨
      (∃ err, (ReadTemplate r n numVals).1 = (none, some err)) := by
  simp only [ReadTemplate]
  split_ifs
  · rcases binary.Read r definition.SimplePacking.layout with ⟨_ | _, _⟩ <;> simp
  · rcases binary.Read r definition.ComplexPacking.layout with ⟨_ | _, _⟩ <;> simp
  · rcases binary.Read r definition.ComplexPackingAndSpatialDifferencing.layout with
      ⟨_ | _, _⟩ <;> simp
  · simp

/-- The header of an implemented template number starts with the `float32` field R, and
no other field is a `float32`. -/
theorem headerLayout_shape (n : TemplateNumber) (hn : n = 0 ∨ n = 2 ∨ n = 3) :
    ∃ tail, headerLayout n = FieldType.float32 :: tail ∧ ∀ f ∈ tail, f ≠ FieldType.float32 := by
  rcases hn with rfl | rfl | rfl
  · exact ⟨_, rfl, by decide⟩
  · exact ⟨_, rfl, by decide⟩
  · exact ⟨_, rfl, by decide⟩

namespace binary

/-- Byte `j` of the `w` bytes of `v` is `v / 256 ^ (w - 1 - j) % 256`. -/
theorem putUint_getD : ∀ (w v j : Nat), j < w →
    ((putUint w v).getD j 0).val = v / 256 ^ (w - 1 - j) % 256
  | 0, _, _, h => absurd h (Nat.not_lt_zero _)
  | w + 1, v, 0, _ => by simp [putUint]
  | w + 1, v, j + 1, h => by
    have hj : j < w := Nat.lt_of_succ_lt_succ h
    simp only [putUint, List.getD_cons_succ]
    rw [putUint_getD w v j hj]
    congr 3
    omega

/-- The encoding of a record, byte by byte: the byte at offset `j` of field `i` is byte `j`
of the word of the field, after the conversion of its type. -/
theorem encode_getD : ∀ (layout : List FieldType) (rec : Record layout) (i j : Nat),
    i < layout.length → j < (layout.getD i (FieldType.int 0)).size →
    ((encode layout rec).getD (dataSize (layout.take i) + j) 0).val =
      (layout.getD i (FieldType.int 0)).convert (Record.field layout rec i) /
        256 ^ ((layout.getD i (FieldType.int 0)).size - 1 - j) % 256
  | [], _, _, _, hi, _ => by simp at hi
  | f :: fs, (v, rest), 0, j, _, hj => by
    have hj2 : j < f.size := by simpa using hj
    have hz : dataSize (List.take 0 (f :: fs)) = 0 := rfl
    simp only [encode, Record.field, List.getD_cons_zero, hz, Nat.zero_add]
    rw [List.getD_append _ _ _ _ (by rw [putUint_length]; exact hj2),
      putUint_getD _ _ _ hj2]
  | f :: fs, (v, rest), i + 1, j, hi, hj => by
    have hi2 : i < fs.length := by simpa using hi
    have hj2 : j < (fs.getD i (FieldType.int 0)).size := by simpa using hj
    simp only [encode, Record.field, List.getD_cons_succ, List.take_succ_cons, dataSize_cons]
    rw [Nat.add_assoc, List.getD_append_right _ _ _ _ (by rw [putUint_length]; omega),
      putUint_length, Nat.add_sub_cancel_left]
    exact encode_getD fs rest i j hi2 hj2

end binary

namespace hex

/-- The text of `EncodeToString`, character by character: each byte gives the digit of its
high half and the digit of its low half, a digit `v` being the character `48 + v` (`0` to
`9`) below ten and `87 + v` (`a` to `f`) from ten on. -/
theorem EncodeToString_val : ∀ src : List Byte,
    (EncodeToString src).map Fin.val =
      src.flatMap (fun b =>
        [if b.val / 16 < 10 then 48 + b.val / 16 else 87 + b.val / 16,
          if b.val % 16 < 10 then 48 + b.val % 16 else 87 + b.val % 16])
  | [] => rfl
  | b :: src => by
    have key : ∀ k : Fin 16, (hextable.getD k.val 0).val =
        if k.val < 10 then 48 + k.val else 87 + k.val := by decide
    have h1 := key ⟨b.val / 16, by have := b.isLt; omega⟩
    have h2 := key ⟨b.val % 16, Nat.mod_lt _ (by decide)⟩
    simp only [EncodeToString, List.map_cons, List.flatMap_cons, EncodeToString_val src,
      List.cons_append, List.nil_append]
    rw [h1, h2]

end hex

/-- A field of a quieted record is the field passed through the conversion of its type. -/
theorem Record.field_quieted : ∀ (layout : List FieldType) (rec : Record layout) (i : Nat),
    Record.field layout (Record.quieted layout rec) i =
      (layout.getD i (FieldType.int 0)).convert (Record.field layout rec i)
  | [], _, _ => rfl
  | f :: fs, (v, rest), 0 => by
    simp only [Record.quieted, Record.field, List.getD_cons_zero]
    exact Nat.mod_eq_of_lt (FieldType.convert_lt f v.val v.isLt)
  | f :: fs, (v, rest), i + 1 => by
    simp only [Record.quieted, Record.field, List.getD_cons_succ]
    exact Record.field_quieted fs rest i

/-- Quieting changes nothing in a header whose R is no signalling NaN. -/
theorem binary.quieted_header (layout : List FieldType)
    (hi : ∀ f ∈ layout, f ≠ FieldType.float32) (rec : Record (FieldType.float32 :: layout))
    (h : ¬ isSignallingNaN (Record.field (FieldType.float32 :: layout) rec 0)) :
    Record.quieted (FieldType.float32 :: layout) rec = rec := by
  obtain ⟨v, rest⟩ := rec
  have hv : ¬ isSignallingNaN v.val := h
  simp only [Record.quieted, binary.quieted_ints layout hi rest]
  congr 1
  apply Fin.ext
  show quietNaN v.val % 256 ^ 4 = v.val
  rw [quietNaN_of_not _ hv]
  exact Nat.mod_eq_of_lt v.isLt

namespace Template

theorem quieted_of_not (t : Template) (h : ¬ isSignallingNaN (t.field 0)) : t.quieted = t := by
  cases t with
  | other d n => rfl
  | SimplePacking p =>
    obtain ⟨d, n⟩ := p
    have := binary.quieted_header _ (by decide) d h
    simp only [quieted]
    exact congrArg (fun x => Template.SimplePacking ⟨x, n⟩) this
  | ComplexPacking p =>
    obtain ⟨d, n⟩ := p
    have := binary.quieted_header _ (by decide) d h
    exact congrArg (fun x => Template.ComplexPacking ⟨x, n⟩) this
  | ComplexPackingAndSpatialDifferencing p =>
    obtain ⟨d, n⟩ := p
    have := binary.quieted_header _ (by decide) d h
    exact congrArg (fun x => Template.ComplexPackingAndSpatialDifferencing ⟨x, n⟩) this

theorem Definition_quieted (t : Template) :
    binary.Write [] t.quieted.Definition = binary.Write [] t.Definition := by
  cases t with
  | other d n => rfl
  | SimplePacking p =>
    exact congrArg (fun x => (x, (none : Option Error))) (binary.encode_quieted _ p.tplDef)
  | ComplexPacking p =>
    exact congrArg (fun x => (x, (none : Option Error))) (binary.encode_quieted _ p.tplDef)
  | ComplexPackingAndSpatialDifferencing p =>
    exact congrArg (fun x => (x, (none : Option Error))) (binary.encode_quieted _ p.tplDef)

theorem GetNumVals_quieted (t : Template) : t.quieted.GetNumVals = t.GetNumVals := by
  cases t <;> rfl

theorem implemented_quieted (t : Template) : t.quieted.implemented = t.implemented := by
  cases t <;> rfl

theorem field_quieted_zero (t : Template) (himpl : t.implemented = true) :
    t.quieted.field 0 = quietNaN (t.field 0) := by
  cases t with
  | other d n => cases himpl
  | SimplePacking p => exact Record.field_quieted _ p.tplDef 0
  | ComplexPacking p => exact Record.field_quieted _ p.tplDef 0
  | ComplexPackingAndSpatialDifferencing p => exact Record.field_quieted _ p.tplDef 0

theorem field_quieted_pos (t : Template) (i : Nat) (hi : 0 < i) :
    t.quieted.field i = t.field i := by
  obtain ⟨j, rfl⟩ : ∃ j, i = j + 1 := ⟨i - 1, by omega⟩
  have key : ∀ (layout : List FieldType), (∀ f ∈ layout, f ≠ FieldType.float32) →
      ∀ (rec : Record (FieldType.float32 :: layout)),
      Record.field _ (Record.quieted _ rec) (j + 1) = Record.field _ rec (j + 1) := by
    intro layout hl rec
    obtain ⟨v, rest⟩ := rec
    simp only [Record.quieted, Record.field, binary.quieted_ints layout hl rest]
  cases t with
  | other d n => rfl
  | SimplePacking p => exact key _ (by decide) p.tplDef
  | ComplexPacking p => exact key _ (by decide) p.tplDef
  | ComplexPackingAndSpatialDifferencing p => exact key _ (by decide) p.tplDef

end Template

namespace gridpoint

/-- The grouped fields are read from the fields of the header after R. -/
theorem readGrouped_congr (h g : Nat → Nat) (hp : ∀ i, 0 < i → g i = h i) (numVals : Int)
    (bits : List Bool) : readGrouped g numVals bits = readGrouped h numVals bits := by
  simp only [readGrouped, readGroups, hp 3 (by decide), hp 9 (by decide), hp 10 (by decide),
    hp 11 (by decide), hp 12 (by decide), hp 13 (by decide), hp 14 (by decide),
    hp 15 (by decide)]

theorem simple_quieted {F : Type} (C : Conventions F)
    (d : definition.SimplePacking) (n : Int) (r : BitReader) :
    SimplePacking.ReadAllData C ⟨Record.quieted _ d, n⟩ r = SimplePacking.ReadAllData C ⟨d, n⟩ r := by
  have hp := fun i hi => Template.field_quieted_pos (.SimplePacking ⟨d, n⟩) i hi
  have h0 := Template.field_quieted_zero (.SimplePacking ⟨d, n⟩) rfl
  simp only [Template.quieted, Template.field] at hp h0
  simp only [SimplePacking.ReadAllData, h0, quietNaN_idem, hp 1 (by decide), hp 2 (by decide),
    hp 3 (by decide)]

theorem complex_quieted {F : Type} (C : Conventions F)
    (d : definition.ComplexPacking) (n : Int) (r : BitReader) :
    ComplexPacking.ReadAllData C ⟨Record.quieted _ d, n⟩ r =
      ComplexPacking.ReadAllData C ⟨d, n⟩ r := by
  have hp := fun i hi => Template.field_quieted_pos (.ComplexPacking ⟨d, n⟩) i hi
  have h0 := Template.field_quieted_zero (.ComplexPacking ⟨d, n⟩) rfl
  simp only [Template.quieted, Template.field] at hp h0
  simp only [ComplexPacking.ReadAllData, h0, quietNaN_idem, hp 1 (by decide), hp 2 (by decide),
    binary.encode_quieted, readGrouped_congr _ _ hp]

theorem spatial_quieted {F : Type} (C : Conventions F)
    (d : definition.ComplexPackingAndSpatialDifferencing) (n : Int) (r : BitReader) :
    ComplexPackingAndSpatialDifferencing.ReadAllData C ⟨Record.quieted _ d, n⟩ r =
      ComplexPackingAndSpatialDifferencing.ReadAllData C ⟨d, n⟩ r := by
  have hp := fun i hi =>
    Template.field_quieted_pos (.ComplexPackingAndSpatialDifferencing ⟨d, n⟩) i hi
  have h0 := Template.field_quieted_zero (.ComplexPackingAndSpatialDifferencing ⟨d, n⟩) rfl
  simp only [Template.quieted, Template.field] at hp h0
  simp only [ComplexPackingAndSpatialDifferencing.ReadAllData, h0, quietNaN_idem,
    hp 1 (by decide), hp 2 (by decide), hp 16 (by decide), hp 17 (by decide),
    readGrouped_congr _ _ hp]

end gridpoint

/-- Quieting a template changes nothing of what its `ReadAllData` returns. -/
theorem Template.ReadAllData_quieted {F : Type} (C : Conventions F)
    (foreign : AnyValue → Int → BitReader → Option (List F) × Option Error)
    (t : Template) (r : BitReader) :
    t.quieted.ReadAllData C foreign r = t.ReadAllData C foreign r := by
  cases t with
  | other d n => rfl
  | SimplePacking p => exact gridpoint.simple_quieted C p.tplDef p.numVals r
  | ComplexPacking p => exact gridpoint.complex_quieted C p.tplDef p.numVals r
  | ComplexPackingAndSpatialDifferencing p =>
    exact gridpoint.spatial_quieted C p.tplDef
      p.numVals r

/-- Re-encoding the header decoded from the first `L(n)` bytes: those bytes, with a
signalling NaN in R quieted. -/
theorem encode_decode_headerLayout (n : TemplateNumber) (hn : n = 0 ∨ n = 2 ∨ n = 3)
    (bs : List Byte) (h : headerLen n ≤ bs.length) :
    binary.encode (headerLayout n) (binary.decode (headerLayout n) (bs.take (headerLen n))) =
      quietHeader (bs.take (headerLen n)) := by
  obtain ⟨tail, hl, hints⟩ := headerLayout_shape n hn
  have htake : (bs.take (headerLen n)).length = headerLen n := by
    rw [List.length_take]; omega
  have := binary.encode_decode_header tail (bs.take (headerLen n)) hints
    (by rw [← hl, htake]; exact Nat.le_refl _)
  rw [← hl] at this
  rw [this]
  show quietHeader ((bs.take (headerLen n)).take (headerLen n)) = _
  rw [List.take_take, Nat.min_self]

/-- The header of an implemented template number has four bytes at least. -/
theorem four_le_headerLen (n : TemplateNumber) (hn : n = 0 ∨ n = 2 ∨ n = 3) :
    4 ≤ headerLen n := by
  rcases hn with rfl | rfl | rfl <;> decide

namespace TemplateMarshaler

/-- The switch of `UnmarshalJSON` is the switch of `ReadTemplate`: once the text is parsed
and the content decoded, the method does what `ReadTemplate` does on a buffer of the
decoded bytes. -/
theorem UnmarshalJSON_eq_ReadTemplate (J : json.Library) (tm : TemplateMarshaler)
    (data : List Byte) (d : templateMarshaler) (decoded : List Byte)
    (hd : J.Unmarshal data = .ok d) (hx : hex.DecodeString d.Content = (decoded, none)) :
    UnmarshalJSON J tm data =
      match (ReadTemplate (bytes.NewBuffer decoded) d.Number d.Vals).1 with
      | (some t, none) => (none, ⟨some t⟩)
      | (_, err) => (err, tm) := by
  simp only [UnmarshalJSON, hd, hx, ReadTemplate]
  by_cases h0 : d.Number = GridPointDataSimplePacking
  · simp only [h0, if_true]
    rcases binary.Read (bytes.NewBuffer decoded) definition.SimplePacking.layout with ⟨_ | _, _⟩ <;> rfl
  · by_cases h2 : d.Number = GridPointDataComplexPacking
    · simp only [h0, h2, if_true, if_false]
      rcases binary.Read (bytes.NewBuffer decoded) definition.ComplexPacking.layout with
        ⟨_ | _, _⟩ <;> rfl
    · by_cases h3 : d.Number = GridPointDataComplexPackingAndSpatialDifferencing
      · simp only [h0, h2, h3, if_true, if_false]
        rcases binary.Read (bytes.NewBuffer decoded)
          definition.ComplexPackingAndSpatialDifferencing.layout with ⟨_ | _, _⟩ <;> rfl
      · simp only [h0, h2, h3, if_false]

/-- A refused content makes `UnmarshalJSON` fail. -/
theorem UnmarshalJSON_hex_error (J : json.Library) (tm : TemplateMarshaler)
    (data : List Byte) (d : templateMarshaler) (hd : J.Unmarshal data = .ok d)
    (h : (hex.DecodeString d.Content).2 ≠ none) :
    ∃ err, UnmarshalJSON J tm data = (some err, tm) := by
  simp only [UnmarshalJSON, hd]
  rcases hdec : hex.DecodeString d.Content with ⟨bs, _ | err⟩
  · rw [hdec] at h; exact absurd rfl h
  · exact ⟨err, rfl⟩

/-- What `MarshalJSON` passes to `json.Marshal` for a Simple Packing. -/
theorem MarshalJSON_simple (J : json.Library) (p : gridpoint.SimplePacking) :
    MarshalJSON J ⟨some (.SimplePacking p)⟩ =
      some (J.Marshal ⟨0, hex.EncodeToString (binary.encode definition.SimplePacking.layout p.tplDef),
        p.numVals⟩) := by
  simp [MarshalJSON, Template.Definition, binary.Write, Template.GetNumVals,
    GridPointDataSimplePacking]

/-- What `MarshalJSON` passes to `json.Marshal` for a Complex Packing. -/
theorem MarshalJSON_complex (J : json.Library) (p : gridpoint.ComplexPacking) :
    MarshalJSON J ⟨some (.ComplexPacking p)⟩ =
      some (J.Marshal ⟨2, hex.EncodeToString (binary.encode definition.ComplexPacking.layout p.tplDef),
        p.numVals⟩) := by
  simp [MarshalJSON, Template.Definition, binary.Write, Template.GetNumVals,
    GridPointDataComplexPacking]

/-- What `MarshalJSON` passes to `json.Marshal` for a Complex Packing and Spatial
Differencing. -/
theorem MarshalJSON_spatial (J : json.Library) (p : gridpoint.ComplexPackingAndSpatialDifferencing) :
    MarshalJSON J ⟨some (.ComplexPackingAndSpatialDifferencing p)⟩ =
      some (J.Marshal ⟨3, hex.EncodeToString
        (binary.encode definition.ComplexPackingAndSpatialDifferencing.layout p.tplDef),
        p.numVals⟩) := by
  simp [MarshalJSON, Template.Definition, binary.Write, Template.GetNumVals,
    GridPointDataComplexPackingAndSpatialDifferencing]

/-- What `UnmarshalJSON` stores from the output of `MarshalJSON`: the template with the
signalling NaNs of its header quieted. -/
theorem UnmarshalJSON_MarshalJSON (J : json.Library) (hJ : J.Lawful)
    (tm : TemplateMarshaler) (t : drt.Template) (himpl : t.implemented = true)
    (hv : isInt t.GetNumVals) :
    ∃ data, MarshalJSON J ⟨some t⟩ = some (some data, none) ∧
      UnmarshalJSON J tm data = (none, ⟨some t.quieted⟩) := by
  cases t with
  | other d n => cases himpl
  | SimplePacking p =>
    obtain ⟨data, hm, hu⟩ := hJ ⟨0, hex.EncodeToString
      (binary.encode definition.SimplePacking.layout p.tplDef), p.numVals⟩
      (hex.EncodeToString_mem _) hv
    refine ⟨data, by rw [MarshalJSON_simple, hm], ?_⟩
    have e := UnmarshalJSON_eq_ReadTemplate J tm data _ _ hu (hex.Decode_EncodeToString _)
    have hr := ReadTemplate_zero_of_le
      (bytes.NewBuffer (binary.encode definition.SimplePacking.layout p.tplDef)) p.numVals
      (by show _ ≤ (binary.encode _ p.tplDef).length; rw [binary.encode_length])
    have hd := binary.decode_take_encode definition.SimplePacking.layout p.tplDef
    simp only [bytes.NewBuffer] at hr e
    rw [hd] at hr
    rw [e, hr]
    rfl
  | ComplexPacking p =>
    obtain ⟨data, hm, hu⟩ := hJ ⟨2, hex.EncodeToString
      (binary.encode definition.ComplexPacking.layout p.tplDef), p.numVals⟩
      (hex.EncodeToString_mem _) hv
    refine ⟨data, by rw [MarshalJSON_complex, hm], ?_⟩
    have e := UnmarshalJSON_eq_ReadTemplate J tm data _ _ hu (hex.Decode_EncodeToString _)
    have hr := ReadTemplate_two_of_le
      (bytes.NewBuffer (binary.encode definition.ComplexPacking.layout p.tplDef)) p.numVals
      (by show _ ≤ (binary.encode _ p.tplDef).length; rw [binary.encode_length])
    have hd := binary.decode_take_encode definition.ComplexPacking.layout p.tplDef
    simp only [bytes.NewBuffer] at hr e
    rw [hd] at hr
    rw [e, hr]
    rfl
  | ComplexPackingAndSpatialDifferencing p =>
    obtain ⟨data, hm, hu⟩ := hJ ⟨3, hex.EncodeToString
      (binary.encode definition.ComplexPackingAndSpatialDifferencing.layout p.tplDef), p.numVals⟩
      (hex.EncodeToString_mem _) hv
    refine ⟨data, by rw [MarshalJSON_spatial, hm], ?_⟩
    have e := UnmarshalJSON_eq_ReadTemplate J tm data _ _ hu (hex.Decode_EncodeToString _)
    have hr := ReadTemplate_three_of_le
      (bytes.NewBuffer (binary.encode definition.ComplexPackingAndSpatialDifferencing.layout
        p.tplDef)) p.numVals
      (by show _ ≤ (binary.encode _ p.tplDef).length; rw [binary.encode_length])
    have hd := binary.decode_take_encode
      definition.ComplexPackingAndSpatialDifferencing.layout p.tplDef
    simp only [bytes.NewBuffer] at hr e
    rw [hd] at hr
    rw [e, hr]
    rfl

/-- The text of `MarshalJSON` is the same for a template and for the template quieted. -/
theorem MarshalJSON_quieted (J : json.Library) (t : drt.Template) :
    MarshalJSON J ⟨some t.quieted⟩ = MarshalJSON J ⟨some t⟩ := by
  cases t with
  | other d n => rfl
  | SimplePacking p =>
    rw [MarshalJSON_simple]
    show MarshalJSON J ⟨some (.SimplePacking ⟨_, p.numVals⟩)⟩ = _
    rw [MarshalJSON_simple, binary.encode_quieted]
  | ComplexPacking p =>
    rw [MarshalJSON_complex]
    show MarshalJSON J ⟨some (.ComplexPacking ⟨_, p.numVals⟩)⟩ = _
    rw [MarshalJSON_complex, binary.encode_quieted]
  | ComplexPackingAndSpatialDifferencing p =>
    rw [MarshalJSON_spatial]
    show MarshalJSON J ⟨some (.ComplexPackingAndSpatialDifferencing ⟨_, p.numVals⟩)⟩ = _
    rw [MarshalJSON_spatial, binary.encode_quieted]

end TemplateMarshaler

/-! ## Value reconstruction: lemmas -/

namespace datapacking

theorem readUints_length (n : Nat) : ∀ (k : Nat) (bits : List Bool) (xs : List Nat)
    (rest : List Bool), readUints n k bits = some (xs, rest) → xs.length = k
  | 0, bits, xs, rest, h => by
    simp only [readUints, Option.some.injEq, Prod.mk.injEq] at h
    rw [← h.1]; rfl
  | k + 1, bits, xs, rest, h => by
    simp only [readUints] at h
    rcases h1 : readUint n bits with _ | ⟨x, rest1⟩
    · simp [h1] at h
    · rcases h2 : readUints n k rest1 with _ | ⟨ys, rest2⟩
      · simp [h1, h2] at h
      · simp only [h1, h2, Option.some.injEq, Prod.mk.injEq] at h
        rw [← h.1, List.length_cons, readUints_length n k rest1 ys rest2 h2]

/-- With enough bits left, the reads succeed, and the integer of index `i` is the one held
by the `n` bits at position `i * n`. -/
theorem readUints_of_le (n : Nat) : ∀ (k : Nat) (bits : List Bool), n * k ≤ bits.length →
    readUints n k bits =
      some ((List.range k).map (fun i => bitsValue ((bits.drop (i * n)).take n)),
        bits.drop (k * n))
  | 0, bits, _ => by simp [readUints]
  | k + 1, bits, h => by
    have h1 : n ≤ bits.length := by
      have : n ≤ n * (k + 1) := Nat.le_mul_of_pos_right n (Nat.succ_pos k)
      omega
    have h2 : n * k ≤ (bits.drop n).length := by
      rw [List.length_drop]
      have : n * (k + 1) = n * k + n := by ring
      omega
    have ih := readUints_of_le n k (bits.drop n) h2
    simp only [readUints, readUint, h1, if_true, ih, List.drop_drop]
    rw [List.range_succ_eq_map, List.map_cons, List.map_map]
    have e1 : (k + 1) * n = n + k * n := by ring
    have e2 : ∀ i : Nat, (i + 1) * n = n + i * n := fun i => by ring
    simp only [Nat.zero_mul, List.drop_zero, e1, Function.comp_def, Nat.succ_eq_add_one, e2]

end datapacking

namespace gridpoint

theorem readElements_length : ∀ (gs : List Group) (bits : List Bool)
    (es : List (Group × Nat)) (rest : List Bool),
    readElements gs bits = some (es, rest) → es.length = (gs.map Group.length).sum
  | [], bits, es, rest, h => by
    simp only [readElements, Option.some.injEq, Prod.mk.injEq] at h
    rw [← h.1]; rfl
  | g :: gs, bits, es, rest, h => by
    simp only [readElements] at h
    rcases h1 : datapacking.readUints g.width g.length bits with _ | ⟨xs, rest1⟩
    · simp [h1] at h
    · rcases h2 : readElements gs rest1 with _ | ⟨ys, rest2⟩
      · simp [h1, h2] at h
      · simp only [h1, h2, Option.some.injEq, Prod.mk.injEq] at h
        rw [← h.1, List.length_append, List.length_map,
          datapacking.readUints_length _ _ _ _ _ h1, readElements_length gs rest1 ys rest2 h2]
        simp

/-- The grouped integers, when they are returned, are as many as `numVals`. -/
theorem readGrouped_length (h : Nat → Nat) (numVals : Int) (bits : List Bool)
    (es : List (Group × Nat)) (hr : readGrouped h numVals bits = (some es, none)) :
    (es.length : Int) = numVals := by
  unfold readGrouped at hr
  rcases h1 : readGroups h bits with _ | ⟨groups, rest⟩
  · rw [h1] at hr
    simp at hr
  · rw [h1] at hr
    dsimp only at hr
    split_ifs at hr with hs
    · rcases h2 : readElements groups rest with _ | ⟨elems, rest2⟩
      · rw [h2] at hr
        simp at hr
      · rw [h2] at hr
        simp only [Prod.mk.injEq, Option.some.injEq, and_true] at hr
        rw [← hr, readElements_length _ _ _ _ h2]
        exact hs
    · simp at hr

theorem undiff1_length (prev : Int) (xs : List Int) : (undiff1 prev xs).length = xs.length := by
  induction xs generalizing prev with
  | nil => rfl
  | cons x xs ih => simp [undiff1, ih]

theorem undiff2_length (p2 p1 : Int) (xs : List Int) :
    (undiff2 p2 p1 xs).length = xs.length := by
  induction xs generalizing p2 p1 with
  | nil => rfl
  | cons x xs ih => simp [undiff2, ih]

theorem undifference_length (order : Nat) (d1 d2 : Int) (xs gs : List Int)
    (h : undifference order d1 d2 xs = some gs) : gs.length = xs.length := by
  simp only [undifference] at h
  split_ifs at h
  · cases xs with
    | nil => simp at h; rw [← h]
    | cons x rest => simp at h; rw [← h]; simp [undiff1_length]
  · match xs, h with
    | [], h => simp at h; rw [← h]
    | [_], h => simp at h; rw [← h]; rfl
    | _ :: _ :: rest, h => simp at h; rw [← h]; simp [undiff2_length]

/-- The values of a Simple Packing, when they are returned, are as many as the count. -/
theorem simple_values_length {F : Type} (C : Conventions F) (p : SimplePacking)
    (r : datapacking.BitReader) (vals : List F)
    (h : p.ReadAllData C r = (some vals, none)) : vals.length = p.numVals.toNat := by
  unfold SimplePacking.ReadAllData at h
  dsimp only at h
  rcases h1 : datapacking.readUints (Record.field definition.SimplePacking.layout p.tplDef 3)
    p.numVals.toNat (datapacking.bitsOf r) with _ | ⟨xs, rest⟩
  · rw [h1] at h
    simp at h
  · rw [h1] at h
    simp only [Prod.mk.injEq, Option.some.injEq, and_true] at h
    rw [← h, List.length_map, datapacking.readUints_length _ _ _ _ _ h1]

/-- The values of a Complex Packing, when they are returned, are as many as the count. -/
theorem complex_values_length {F : Type} (C : Conventions F) (p : ComplexPacking)
    (r : datapacking.BitReader) (vals : List F)
    (h : p.ReadAllData C r = (some vals, none)) : (vals.length : Int) = p.numVals := by
  unfold ComplexPacking.ReadAllData at h
  dsimp only at h
  rcases h1 : readGrouped (Record.field definition.ComplexPacking.layout p.tplDef) p.numVals
    (datapacking.bitsOf r) with ⟨_ | es, _ | err⟩
  · rw [h1] at h
    simp at h
  · rw [h1] at h
    simp at h
  · rw [h1] at h
    simp only [Prod.mk.injEq, Option.some.injEq, and_true] at h
    rw [← h, List.length_map]
    exact readGrouped_length _ _ _ _ h1
  · rw [h1] at h
    simp at h

/-- The values of a Complex Packing and Spatial Differencing, when they are returned, are
as many as the count. -/
theorem spatial_values_length {F : Type} (C : Conventions F)
    (p : ComplexPackingAndSpatialDifferencing) (r : datapacking.BitReader) (vals : List F)
    (h : p.ReadAllData C r = (some vals, none)) : (vals.length : Int) = p.numVals := by
  unfold ComplexPackingAndSpatialDifferencing.ReadAllData at h
  dsimp only at h
  rcases h0 : datapacking.readUints
    (8 * Record.field definition.ComplexPackingAndSpatialDifferencing.layout p.tplDef 17)
    (Record.field definition.ComplexPackingAndSpatialDifferencing.layout p.tplDef 16 + 1)
    (datapacking.bitsOf r) with _ | ⟨extra, rest⟩
  · rw [h0] at h
    simp at h
  · rw [h0] at h
    dsimp only at h
    rcases h1 : readGrouped
      (Record.field definition.ComplexPackingAndSpatialDifferencing.layout p.tplDef) p.numVals
      rest with ⟨_ | es, _ | err⟩
    · rw [h1] at h
      simp at h
    · rw [h1] at h
      simp at h
    · rw [h1] at h
      dsimp only at h
      rcases h2 : undifference
        (Record.field definition.ComplexPackingAndSpatialDifferencing.layout p.tplDef 16)
        (C.signed (Record.field definition.ComplexPackingAndSpatialDifferencing.layout p.tplDef 17)
          (extra.getD 0 0))
        (C.signed (Record.field definition.ComplexPackingAndSpatialDifferencing.layout p.tplDef 17)
          (extra.getD 1 0))
        (es.map (fun e => ((e.1.ref + e.2 : Nat) : Int))) with _ | gs
      · rw [h2] at h
        simp at h
      · rw [h2] at h
        simp only [Prod.mk.injEq, Option.some.injEq, and_true] at h
        rw [← h, List.length_map, undifference_length _ _ _ _ _ h2, List.length_map]
        exact readGrouped_length _ _ _ _ h1
    · rw [h1] at h
      simp at h

end gridpoint

/-- A template that `ReadTemplate` returns is one of the three packings, with the count
passed in, and the number is 0, 2 or 3. -/
theorem ReadTemplate_some (r : BitReader) (n : TemplateNumber) (numVals : Int) (t : Template)
    (h : (ReadTemplate r n numVals).1 = (some t, none)) :
    (n = 0 ∨ n = 2 ∨ n = 3) ∧ t.implemented = true ∧ t.GetNumVals = numVals := by
  by_cases h0 : n = 0
  · subst h0
    simp only [ReadTemplate, GridPointDataSimplePacking, if_true] at h
    rcases hb : binary.Read r definition.SimplePacking.layout with ⟨err | d, r1⟩
    · rw [hb] at h
      simp at h
    · rw [hb] at h
      simp only [Prod.mk.injEq, Option.some.injEq, and_true] at h
      subst h
      exact ⟨Or.inl rfl, rfl, rfl⟩
  · by_cases h2 : n = 2
    · subst h2
      simp only [ReadTemplate, GridPointDataSimplePacking, GridPointDataComplexPacking, h0,
        if_true, if_false] at h
      rcases hb : binary.Read r definition.ComplexPacking.layout with ⟨err | d, r1⟩
      · rw [hb] at h
        simp at h
      · rw [hb] at h
        simp only [Prod.mk.injEq, Option.some.injEq, and_true] at h
        subst h
        exact ⟨Or.inr (Or.inl rfl), rfl, rfl⟩
    · by_cases h3 : n = 3
      · subst h3
        simp only [ReadTemplate, GridPointDataSimplePacking, GridPointDataComplexPacking,
          GridPointDataComplexPackingAndSpatialDifferencing, h0, h2, if_true, if_false] at h
        rcases hb : binary.Read r definition.ComplexPackingAndSpatialDifferencing.layout with
          ⟨err | d, r1⟩
        · rw [hb] at h
          simp at h
        · rw [hb] at h
          simp only [Prod.mk.injEq, Option.some.injEq, and_true] at h
          subst h
          exact ⟨Or.inr (Or.inr rfl), rfl, rfl⟩
      · rw [ReadTemplate_default r n numVals h0 h2 h3] at h
        simp at h

/-! ## The registry: `ReadTemplate` -/

/-- C1: for every template number other than 0, 2 and 3, every count and every reader,
`ReadTemplate` returns a nil template and the error whose message is
`data template not implemented: ` followed by the number in decimal. -/
theorem ReadTemplate_unimplemented (r : BitReader) (n : TemplateNumber) (numVals : Int)
    (h0 : n ≠ 0) (h2 : n ≠ 2) (h3 : n ≠ 3) :
    (ReadTemplate r n numVals).1 =
      (none, some (Error.errorf ("data template not implemented: " ++ Nat.repr n.val))) := by
  rw [ReadTemplate_default r n numVals h0 h2 h3]

/-- C1 at the number 255 (`TemplateNumberMissing`), on a reader of three bytes. -/
theorem ReadTemplate_unimplemented_witness :
    (ReadTemplate ⟨[1, 2, 3]⟩ 255 7).1 =
      (none, some (Error.errorf "data template not implemented: 255")) :=
  ReadTemplate_unimplemented ⟨[1, 2, 3]⟩ 255 7 (by decide) (by decide) (by decide)

/-- C3: for a template number among 0, 2 and 3 and a reader holding at least `L(n)` bytes,
`ReadTemplate` returns a nil error and a template of the variant of the number, whose
header record is the big-endian decode of the first `L(n)` bytes of the reader: each field
is the big-endian word of its own bytes, in the order of the layout, the `float32` field R
stored with a signalling NaN quieted as `binary.Read` does, so that the record encodes
back to those bytes with R quieted, and to exactly those bytes when R is no signalling
NaN. Its count is the `numVals` passed in. -/
theorem ReadTemplate_ok (r : BitReader) (n : TemplateNumber) (numVals : Int)
    (hn : n = 0 ∨ n = 2 ∨ n = 3) (hlen : headerLen n ≤ r.buf.length) :
    ∃ t, (ReadTemplate r n numVals).1 = (some t, none) ∧
      (n = 0 → t = .SimplePacking (gridpoint.NewSimplePacking
        (binary.decode definition.SimplePacking.layout (r.buf.take (headerLen n))) numVals)) ∧
      (n = 2 → t = .ComplexPacking (gridpoint.NewComplexPacking
        (binary.decode definition.ComplexPacking.layout (r.buf.take (headerLen n))) numVals)) ∧
      (n = 3 → t = .ComplexPackingAndSpatialDifferencing
        (gridpoint.NewComplexPackingAndSpatialDifferencing
          (binary.decode definition.ComplexPackingAndSpatialDifferencing.layout
            (r.buf.take (headerLen n))) numVals)) ∧
      (∀ i, i < (headerLayout n).length →
        t.field i = ((headerLayout n).getD i (FieldType.int 0)).convert
          (bigEndian (((r.buf.take (headerLen n)).drop
            (binary.dataSize ((headerLayout n).take i))).take
              ((headerLayout n).getD i (FieldType.int 0)).size))) ∧
      t.field 0 =
        (if isSignallingNaN (bigEndian (r.buf.take 4)) then bigEndian (r.buf.take 4) + 2 ^ 22
          else bigEndian (r.buf.take 4)) ∧
      (∀ i, 0 < i → i < (headerLayout n).length →
        t.field i = bigEndian (((r.buf.take (headerLen n)).drop
          (binary.dataSize ((headerLayout n).take i))).take
            ((headerLayout n).getD i (FieldType.int 0)).size)) ∧
      binary.Write [] t.Definition = (quietHeader (r.buf.take (headerLen n)), none) ∧
      (¬ isSignallingNaN (bigEndian (r.buf.take 4)) →
        binary.Write [] t.Definition = (r.buf.take (headerLen n), none)) ∧
      t.GetNumVals = numVals := by
  obtain ⟨tail, hl, hints⟩ := headerLayout_shape n hn
  have hfour : 4 ≤ headerLen n := by
    rw [headerLen, hl, binary.dataSize_cons]; exact Nat.le_add_right 4 _
  have htake : (r.buf.take (headerLen n)).length = headerLen n := by
    rw [List.length_take]; omega
  have hle : binary.dataSize (headerLayout n) ≤ (r.buf.take (headerLen n)).length := by
    rw [htake]; exact Nat.le_refl _
  have h4 : (r.buf.take (headerLen n)).take 4 = r.buf.take 4 := by
    rw [List.take_take, Nat.min_eq_left hfour]
  have hfield := fun i hi =>
    binary.field_decode (headerLayout n) (r.buf.take (headerLen n)) i hi hle
  have hzero : Record.field (headerLayout n)
      (binary.decode (headerLayout n) (r.buf.take (headerLen n))) 0 =
      (if isSignallingNaN (bigEndian (r.buf.take 4)) then bigEndian (r.buf.take 4) + 2 ^ 22
        else bigEndian (r.buf.take 4)) := by
    have h0 := hfield 0 (by rw [hl]; simp)
    rw [h0]
    simp only [hl, List.getD_cons_zero, List.take_zero, FieldType.convert, FieldType.size,
      quietNaN]
    have : binary.dataSize [] = 0 := rfl
    rw [this, List.drop_zero, h4]
  have hpos : ∀ i, 0 < i → i < (headerLayout n).length →
      Record.field (headerLayout n)
        (binary.decode (headerLayout n) (r.buf.take (headerLen n))) i =
      bigEndian (((r.buf.take (headerLen n)).drop
        (binary.dataSize ((headerLayout n).take i))).take
          ((headerLayout n).getD i (FieldType.int 0)).size) := by
    intro i h0 hi
    rw [hfield i hi]
    have hmem : (headerLayout n).getD i (FieldType.int 0) ∈ tail := by
      obtain ⟨j, rfl⟩ : ∃ j, i = j + 1 := ⟨i - 1, by omega⟩
      rw [hl] at hi ⊢
      have hj : j < tail.length := by simpa using hi
      rw [List.getD_cons_succ, List.getD_eq_getElem _ _ hj]
      exact List.getElem_mem _
    have hne := hints _ hmem
    cases hf : (headerLayout n).getD i (FieldType.int 0) with
    | int s => rfl
    | float32 => exact absurd hf hne
  have henc : binary.encode (headerLayout n)
      (binary.decode (headerLayout n) (r.buf.take (headerLen n))) =
      quietHeader (r.buf.take (headerLen n)) := by
    have := binary.encode_decode_header tail (r.buf.take (headerLen n)) hints
      (by rw [← hl]; exact hle)
    rw [← hl] at this
    rw [this]
    show quietHeader ((r.buf.take (headerLen n)).take (headerLen n)) = _
    rw [List.take_take, Nat.min_self]
  have hplain : ¬ isSignallingNaN (bigEndian (r.buf.take 4)) →
      quietHeader (r.buf.take (headerLen n)) = r.buf.take (headerLen n) := by
    intro h
    exact binary.quietHeader_of_not _ (by rw [htake]; exact hfour) (by rw [h4]; exact h)
  rcases hn with rfl | rfl | rfl
  · have h : binary.dataSize definition.SimplePacking.layout ≤ r.buf.length := hlen
    refine ⟨_, by rw [ReadTemplate_zero_of_le r numVals h]; rfl, fun _ => rfl, ?_, ?_,
      hfield, hzero, hpos, ?_, ?_, rfl⟩
    · intro h; exact absurd h (by decide)
    · intro h; exact absurd h (by decide)
    · exact congrArg (fun x => (x, (none : Option Error))) henc
    · intro hs
      exact congrArg (fun x => (x, (none : Option Error))) (henc.trans (hplain hs))
  · have h : binary.dataSize definition.ComplexPacking.layout ≤ r.buf.length := hlen
    refine ⟨_, by rw [ReadTemplate_two_of_le r numVals h]; rfl, ?_, fun _ => rfl, ?_,
      hfield, hzero, hpos, ?_, ?_, rfl⟩
    · intro h; exact absurd h (by decide)
    · intro h; exact absurd h (by decide)
    · exact congrArg (fun x => (x, (none : Option Error))) henc
    · intro hs
      exact congrArg (fun x => (x, (none : Option Error))) (henc.trans (hplain hs))
  · have h : binary.dataSize definition.ComplexPackingAndSpatialDifferencing.layout ≤
        r.buf.length := hlen
    refine ⟨_, by rw [ReadTemplate_three_of_le r numVals h]; rfl, ?_, ?_, fun _ => rfl,
      hfield, hzero, hpos, ?_, ?_, rfl⟩
    · intro h; exact absurd h (by decide)
    · intro h; exact absurd h (by decide)
    · exact congrArg (fun x => (x, (none : Option Error))) henc
    · intro hs
      exact congrArg (fun x => (x, (none : Option Error))) (henc.trans (hplain hs))

/-- C3 on two Simple Packing headers followed by three bytes of values, with a count of 3:
R = 1.0, E = 1, D = -2, N = 8, which encodes back to its own bytes, and the header whose R
is the signalling NaN `7f800001`, which is stored and written back as `7fc00001`. -/
theorem ReadTemplate_ok_witness :
    (headerLen 0 ≤ (Reader.mk [63, 128, 0, 0, 0, 1, 255, 254, 8, 0, 0, 10, 20]).buf.length ∧
      ∃ t, (ReadTemplate ⟨[63, 128, 0, 0, 0, 1, 255, 254, 8, 0, 0, 10, 20]⟩ 0 3).1 =
          (some t, none) ∧
        t.field 0 = 1065353216 ∧ t.field 1 = 1 ∧ t.field 2 = 65534 ∧ t.field 3 = 8 ∧
        t.field 4 = 0 ∧
        binary.Write [] t.Definition = ([63, 128, 0, 0, 0, 1, 255, 254, 8, 0], none) ∧
        t.GetNumVals = 3) ∧
    (headerLen 0 ≤ (Reader.mk [127, 128, 0, 1, 0, 1, 255, 254, 8, 0, 0, 10, 20]).buf.length ∧
      ∃ t, (ReadTemplate ⟨[127, 128, 0, 1, 0, 1, 255, 254, 8, 0, 0, 10, 20]⟩ 0 3).1 =
          (some t, none) ∧
        t.field 0 = 2143289345 ∧ t.field 1 = 1 ∧ t.field 2 = 65534 ∧ t.field 3 = 8 ∧
        t.field 4 = 0 ∧
        binary.Write [] t.Definition = ([127, 192, 0, 1, 0, 1, 255, 254, 8, 0], none) ∧
        t.GetNumVals = 3) :=
  ⟨⟨by decide,
    (ReadTemplate_ok ⟨[63, 128, 0, 0, 0, 1, 255, 254, 8, 0, 0, 10, 20]⟩ 0 3 (Or.inl rfl)
      (by decide)).imp (fun _ h =>
        ⟨h.1, h.2.2.2.2.2.1.trans (by decide),
          (h.2.2.2.2.2.2.1 1 (by decide) (by decide)).trans (by decide),
          (h.2.2.2.2.2.2.1 2 (by decide) (by decide)).trans (by decide),
          (h.2.2.2.2.2.2.1 3 (by decide) (by decide)).trans (by decide),
          (h.2.2.2.2.2.2.1 4 (by decide) (by decide)).trans (by decide),
          h.2.2.2.2.2.2.2.1.trans (by decide), h.2.2.2.2.2.2.2.2.2⟩)⟩,
   ⟨by decide,
    (ReadTemplate_ok ⟨[127, 128, 0, 1, 0, 1, 255, 254, 8, 0, 0, 10, 20]⟩ 0 3 (Or.inl rfl)
      (by decide)).imp (fun _ h =>
        ⟨h.1, h.2.2.2.2.2.1.trans (by decide),
          (h.2.2.2.2.2.2.1 1 (by decide) (by decide)).trans (by decide),
          (h.2.2.2.2.2.2.1 2 (by decide) (by decide)).trans (by decide),
          (h.2.2.2.2.2.2.1 3 (by decide) (by decide)).trans (by decide),
          (h.2.2.2.2.2.2.1 4 (by decide) (by decide)).trans (by decide),
          h.2.2.2.2.2.2.2.1.trans (by decide), h.2.2.2.2.2.2.2.2.2⟩)⟩⟩

/-- C4: for a template number among 0, 2 and 3 and a reader holding fewer than `L(n)` bytes,
the empty reader included, `ReadTemplate` returns a nil template and exactly the error of
the header read `binary.Read`: `io.EOF` on an empty reader and `io.ErrUnexpectedEOF`
otherwise. -/
theorem ReadTemplate_short (r : BitReader) (n : TemplateNumber) (numVals : Int)
    (hn : n = 0 ∨ n = 2 ∨ n = 3) (hlen : r.buf.length < headerLen n) :
    ∃ err, (binary.Read r (headerLayout n)).1 = .error err ∧
      (ReadTemplate r n numVals).1 = (none, some err) ∧
      err = (if r.buf = [] then Error.EOF else Error.ErrUnexpectedEOF) := by
  refine ⟨_, ?_, ?_, rfl⟩
  · rw [binary.Read_of_lt r (headerLayout n) hlen]
  · rw [ReadTemplate_of_lt r n numVals hn hlen]

/-- C4 on a reader of two bytes and the number 2, whose header has 36 bytes. -/
theorem ReadTemplate_short_witness :
    (Reader.mk [63, 128]).buf.length < headerLen 2 ∧
    ∃ err, (binary.Read ⟨[63, 128]⟩ (headerLayout 2)).1 = .error err ∧
      (ReadTemplate ⟨[63, 128]⟩ 2 5).1 = (none, some err) ∧
      err = (if (Reader.mk [63, 128]).buf = [] then Error.EOF else Error.ErrUnexpectedEOF) :=
  ⟨by decide, ReadTemplate_short ⟨[63, 128]⟩ 2 5 (Or.inr (Or.inl rfl)) (by decide)⟩

/-- C9: for a template number among 0, 2 and 3 and a reader holding at least `L(n)` bytes,
`ReadTemplate` succeeds and leaves in the reader exactly the input without its first
`L(n)` bytes, where `L(n)` is 10, 36 or 38 whatever the header holds. -/
theorem ReadTemplate_advances (r : BitReader) (n : TemplateNumber) (numVals : Int)
    (hn : n = 0 ∨ n = 2 ∨ n = 3) (hlen : headerLen n ≤ r.buf.length) :
    (ReadTemplate r n numVals).1.2 = none ∧
      (ReadTemplate r n numVals).2.buf = r.buf.drop (headerLen n) ∧
      r.buf = r.buf.take (headerLen n) ++ (ReadTemplate r n numVals).2.buf ∧
      (n = 0 → headerLen n = 10) ∧ (n = 2 → headerLen n = 36) ∧ (n = 3 → headerLen n = 38) := by
  have h2 : (ReadTemplate r n numVals).1.2 = none ∧
      (ReadTemplate r n numVals).2.buf = r.buf.drop (headerLen n) := by
    rcases hn with rfl | rfl | rfl
    · rw [ReadTemplate_zero_of_le r numVals hlen]; exact ⟨rfl, rfl⟩
    · rw [ReadTemplate_two_of_le r numVals hlen]; exact ⟨rfl, rfl⟩
    · rw [ReadTemplate_three_of_le r numVals hlen]; exact ⟨rfl, rfl⟩
  refine ⟨h2.1, h2.2, by rw [h2.2, List.take_append_drop], ?_, ?_, ?_⟩ <;>
    (intro h; subst h; rfl)

/-- C9 on a reader of thirteen bytes and the number 0: the last three bytes are left. -/
theorem ReadTemplate_advances_witness :
    headerLen 0 ≤ (Reader.mk [63, 128, 0, 0, 0, 0, 0, 0, 8, 0, 0, 10, 20]).buf.length ∧
    (ReadTemplate ⟨[63, 128, 0, 0, 0, 0, 0, 0, 8, 0, 0, 10, 20]⟩ 0 3).2.buf = [0, 10, 20] :=
  ⟨by decide,
    (ReadTemplate_advances ⟨[63, 128, 0, 0, 0, 0, 0, 0, 8, 0, 0, 10, 20]⟩ 0 3 (Or.inl rfl)
      (by decide)).2.1⟩

/-- C10: for every template number other than 0, 2 and 3, `ReadTemplate` leaves the reader
as it was: no byte is read. -/
theorem ReadTemplate_reads_nothing (r : BitReader) (n : TemplateNumber) (numVals : Int)
    (h0 : n ≠ 0) (h2 : n ≠ 2) (h3 : n ≠ 3) :
    (ReadTemplate r n numVals).2 = r := by
  rw [ReadTemplate_default r n numVals h0 h2 h3]

/-- C10 at the number 40 (JPEG 2000), on a reader of three bytes. -/
theorem ReadTemplate_reads_nothing_witness :
    (ReadTemplate ⟨[1, 2, 3]⟩ 40 7).2 = ⟨[1, 2, 3]⟩ :=
  ReadTemplate_reads_nothing ⟨[1, 2, 3]⟩ 40 7 (by decide) (by decide) (by decide)

/-! ## The persistence codec: `MarshalJSON` and `UnmarshalJSON` -/

namespace TemplateMarshaler

set_option maxRecDepth 100000

/-- C2: with a JSON library that gives back the struct it has marshalled, for every template
of the three implemented variants, whatever its header record and its count (an `int`),
`MarshalJSON` succeeds and `UnmarshalJSON` on its output succeeds and stores a template of
the same variant, whose header encodes to the same bytes, whose count is the same, whose
`MarshalJSON` is the same and whose `ReadAllData` returns the same on every reader. The
template stored is the one marshalled with a signalling NaN in R quieted (the `float32`
passes through `float64` in `binary.Write` and `binary.Read`): every other field is the
same, and the template is the very same one when R is no signalling NaN. -/
theorem MarshalJSON_UnmarshalJSON_roundtrip (J : json.Library) (hJ : J.Lawful)
    (tm : TemplateMarshaler) (t : drt.Template) (himpl : t.implemented = true)
    (hv : isInt t.GetNumVals) :
    ∃ data t1, MarshalJSON J ⟨some t⟩ = some (some data, none) ∧
      UnmarshalJSON J tm data = (none, ⟨some t1⟩) ∧
      ((∃ p, t = .SimplePacking p) → ∃ p1, t1 = .SimplePacking p1) ∧
      ((∃ p, t = .ComplexPacking p) → ∃ p1, t1 = .ComplexPacking p1) ∧
      ((∃ p, t = .ComplexPackingAndSpatialDifferencing p) →
        ∃ p1, t1 = .ComplexPackingAndSpatialDifferencing p1) ∧
      t1.implemented = true ∧
      binary.Write [] t1.Definition = binary.Write [] t.Definition ∧
      (∃ bs, binary.Write [] t.Definition = (bs, none)) ∧
      t1.GetNumVals = t.GetNumVals ∧
      MarshalJSON J ⟨some t1⟩ = MarshalJSON J ⟨some t⟩ ∧
      (∀ (F : Type) (C : Conventions F)
        (foreign : AnyValue → Int → BitReader → Option (List F) × Option Error)
        (r : BitReader), t1.ReadAllData C foreign r = t.ReadAllData C foreign r) ∧
      t1 = t.quieted ∧
      t1.field 0 = (if isSignallingNaN (t.field 0) then t.field 0 + 2 ^ 22 else t.field 0) ∧
      (∀ i, 0 < i → t1.field i = t.field i) ∧
      (¬ isSignallingNaN (t.field 0) → t1 = t ∧
        ∀ (β : Type) (ReadAllData : drt.Template → BitReader → β) (r : BitReader),
          ReadAllData t1 r = ReadAllData t r) := by
  obtain ⟨data, hm, hu⟩ := UnmarshalJSON_MarshalJSON J hJ tm t himpl hv
  refine ⟨data, t.quieted, hm, hu, ?_, ?_, ?_, ?_, Template.Definition_quieted t, ?_,
    Template.GetNumVals_quieted t, MarshalJSON_quieted J t,
    fun F C foreign r => Template.ReadAllData_quieted C foreign t r, rfl,
    Template.field_quieted_zero t himpl, fun i hi => Template.field_quieted_pos t i hi, ?_⟩
  · rintro ⟨p, rfl⟩; exact ⟨_, rfl⟩
  · rintro ⟨p, rfl⟩; exact ⟨_, rfl⟩
  · rintro ⟨p, rfl⟩; exact ⟨_, rfl⟩
  · rw [Template.implemented_quieted]; exact himpl
  · cases t with
    | other d n => cases himpl
    | SimplePacking p => exact ⟨_, rfl⟩
    | ComplexPacking p => exact ⟨_, rfl⟩
    | ComplexPackingAndSpatialDifferencing p => exact ⟨_, rfl⟩
  · intro h
    have e := Template.quieted_of_not t h
    exact ⟨e, fun β f r => by rw [e]⟩

/-- C2 with the reference JSON library, into a marshaler that holds nothing, on two Simple
Packing templates of count 3: the one of header R = 1.0, E = 0, D = 0, N = 8, which comes
back as it is, and the one whose R is the signalling NaN `7f800001`, which comes back
with R = `7fc00001`. -/
theorem MarshalJSON_UnmarshalJSON_roundtrip_witness :
    json.reference.Lawful ∧
    (∃ data, MarshalJSON json.reference ⟨some (.SimplePacking
        ⟨binary.decode definition.SimplePacking.layout [63, 128, 0, 0, 0, 0, 0, 0, 8, 0], 3⟩)⟩ =
        some (some data, none) ∧
      UnmarshalJSON json.reference ⟨none⟩ data = (none, ⟨some (.SimplePacking
        ⟨binary.decode definition.SimplePacking.layout [63, 128, 0, 0, 0, 0, 0, 0, 8, 0], 3⟩)⟩)) ∧
    (∃ data, MarshalJSON json.reference ⟨some (.SimplePacking
        ⟨(⟨2139095041, by decide⟩, ⟨0, by decide⟩, ⟨0, by decide⟩, ⟨8, by decide⟩,
          ⟨0, by decide⟩, ()), 3⟩)⟩ = some (some data, none) ∧
      UnmarshalJSON json.reference ⟨none⟩ data = (none, ⟨some (.SimplePacking
        ⟨(⟨2143289345, by decide⟩, ⟨0, by decide⟩, ⟨0, by decide⟩, ⟨8, by decide⟩,
          ⟨0, by decide⟩, ()), 3⟩)⟩)) := by
  refine ⟨json.reference_lawful, ?_, ?_⟩
  · obtain ⟨data, t1, hm, hu, -, -, -, -, -, -, -, -, -, -, -, -, hsame⟩ :=
      MarshalJSON_UnmarshalJSON_roundtrip json.reference json.reference_lawful ⟨none⟩
        (.SimplePacking
          ⟨binary.decode definition.SimplePacking.layout [63, 128, 0, 0, 0, 0, 0, 0, 8, 0], 3⟩)
        rfl (by decide)
    refine ⟨data, hm, ?_⟩
    rw [hu, (hsame (by decide)).1]
  · obtain ⟨data, t1, hm, hu, -, -, -, -, -, -, -, -, -, hq, -⟩ :=
      MarshalJSON_UnmarshalJSON_roundtrip json.reference json.reference_lawful ⟨none⟩
        (.SimplePacking
          ⟨(⟨2139095041, by decide⟩, ⟨0, by decide⟩, ⟨0, by decide⟩, ⟨8, by decide⟩,
            ⟨0, by decide⟩, ()), 3⟩)
        rfl (by decide)
    refine ⟨data, hm, ?_⟩
    rw [hu, hq]
    decide

/-- C5, as stated, fails: on the descriptor of number 1 whose content is `zz`, the content is
decoded before the number is looked at, and `UnmarshalJSON` returns the error of
`hex.DecodeString` (an invalid byte `z`), which is not the error of `ReadTemplate` for the
number 1. -/
theorem UnmarshalJSON_unimplemented_invalid_hex :
    json.reference.Unmarshal (ascii "\x7b\"number\":1,\"content\":\"zz\",\"vals\":0\x7d") =
        .ok ⟨1, ascii "zz", 0⟩ ∧
      (UnmarshalJSON json.reference ⟨none⟩
        (ascii "\x7b\"number\":1,\"content\":\"zz\",\"vals\":0\x7d")).1 =
        some (.InvalidByteError (byteOf 'z')) ∧
      (ReadTemplate ⟨[]⟩ 1 0).1.2 = some (.errorf "data template not implemented: 1") ∧
      (UnmarshalJSON json.reference ⟨none⟩
        (ascii "\x7b\"number\":1,\"content\":\"zz\",\"vals\":0\x7d")).1 ≠
        (ReadTemplate ⟨[]⟩ 1 0).1.2 := by
  decide

/-- C5, amended: for every JSON descriptor whose number is not 0, 2 or 3 and whose content
is valid hexadecimal text (an even number of hexadecimal characters), whatever the count
and the decoded bytes, `UnmarshalJSON` fails with the error of `ReadTemplate` for that
number, `data template not implemented: ` followed by the number in decimal, and leaves
the receiver as it was. -/
theorem UnmarshalJSON_unimplemented (J : json.Library) (tm : TemplateMarshaler)
    (data : List Byte) (d : templateMarshaler) (hd : J.Unmarshal data = .ok d)
    (h0 : d.Number ≠ 0) (h2 : d.Number ≠ 2) (h3 : d.Number ≠ 3)
    (heven : d.Content.length % 2 = 0) (hhex : ∀ c ∈ d.Content, hex.fromHexChar c ≠ none)
    (r : BitReader) (numVals : Int) :
    UnmarshalJSON J tm data =
        (some (.errorf ("data template not implemented: " ++ Nat.repr d.Number.val)), tm) ∧
      (UnmarshalJSON J tm data).1 = (ReadTemplate r d.Number numVals).1.2 := by
  have hx : hex.DecodeString d.Content = ((hex.Decode d.Content).1, none) :=
    Prod.ext rfl (hex.Decode_valid d.Content heven hhex).1
  have e := UnmarshalJSON_eq_ReadTemplate J tm data d _ hd hx
  rw [ReadTemplate_default _ d.Number d.Vals h0 h2 h3] at e
  rw [e, ReadTemplate_default r d.Number numVals h0 h2 h3]
  exact ⟨rfl, rfl⟩

/-- C5, amended, with the reference JSON library on the descriptor of number 41 (PNG) whose
content is the two bytes `00ff`. -/
theorem UnmarshalJSON_unimplemented_witness :
    UnmarshalJSON json.reference ⟨none⟩
        (ascii "\x7b\"number\":41,\"content\":\"00ff\",\"vals\":9\x7d") =
      (some (.errorf "data template not implemented: 41"), ⟨none⟩) :=
  (UnmarshalJSON_unimplemented json.reference ⟨none⟩
    (ascii "\x7b\"number\":41,\"content\":\"00ff\",\"vals\":9\x7d") ⟨41, ascii "00ff", 9⟩
    (by decide) (by decide) (by decide) (by decide) (by decide)
    (by decide) ⟨[]⟩ 0).1

/-- C6: for every number `n`, count `v` and bytes `b`, on the descriptor of number `n`,
count `v` and content the hexadecimal text of `b`, `UnmarshalJSON` returns the error that
`ReadTemplate` returns on a reader over `b` with `n` and `v` (so one succeeds exactly when
the other does), and on success both produce the same template. -/
theorem UnmarshalJSON_same_family_table (J : json.Library) (tm : TemplateMarshaler)
    (data : List Byte) (n : TemplateNumber) (v : Int) (b : List Byte)
    (hd : J.Unmarshal data = .ok ⟨n, hex.EncodeToString b, v⟩) :
    (UnmarshalJSON J tm data).1 = (ReadTemplate (bytes.NewBuffer b) n v).1.2 ∧
      ((UnmarshalJSON J tm data).1 = none ↔ (ReadTemplate (bytes.NewBuffer b) n v).1.2 = none) ∧
      ((UnmarshalJSON J tm data).1 = none →
        ∃ t, (UnmarshalJSON J tm data).2.Template = some t ∧
          (ReadTemplate (bytes.NewBuffer b) n v).1.1 = some t) := by
  have e := UnmarshalJSON_eq_ReadTemplate J tm data _ b hd (hex.Decode_EncodeToString b)
  simp only at e
  rcases ReadTemplate_shape (bytes.NewBuffer b) n v with ⟨t, ht⟩ | ⟨err, herr⟩
  · rw [ht] at e
    rw [e, ht]
    exact ⟨rfl, Iff.rfl, fun _ => ⟨t, rfl, rfl⟩⟩
  · rw [herr] at e
    rw [e, herr]
    exact ⟨rfl, Iff.rfl, fun h => by cases h⟩

/-- C6 with the reference JSON library on a descriptor of number 0 and count 3 whose content
is the text of a Simple Packing header, the keys in another order. -/
theorem UnmarshalJSON_same_family_table_witness :
    json.reference.Unmarshal
        (ascii "\x7b\"vals\": 3, \"number\": 0, \"content\": \"3f800000000000000800\"\x7d") =
      .ok ⟨0, hex.EncodeToString [63, 128, 0, 0, 0, 0, 0, 0, 8, 0], 3⟩ ∧
    (UnmarshalJSON json.reference ⟨none⟩
        (ascii "\x7b\"vals\": 3, \"number\": 0, \"content\": \"3f800000000000000800\"\x7d")).1 =
      (ReadTemplate (bytes.NewBuffer [63, 128, 0, 0, 0, 0, 0, 0, 8, 0]) 0 3).1.2 :=
  ⟨by decide,
    (UnmarshalJSON_same_family_table json.reference ⟨none⟩
      (ascii "\x7b\"vals\": 3, \"number\": 0, \"content\": \"3f800000000000000800\"\x7d")
      0 3 [63, 128, 0, 0, 0, 0, 0, 0, 8, 0] (by decide)).1⟩

/-- C7: for every JSON descriptor whose number is 0, 2 or 3, `UnmarshalJSON` returns an
error when the content has an odd length, or holds a character that is not hexadecimal,
or decodes to fewer bytes than `L(n)` (the empty content included). -/
theorem UnmarshalJSON_malformed (J : json.Library) (tm : TemplateMarshaler)
    (data : List Byte) (d : templateMarshaler) (hd : J.Unmarshal data = .ok d)
    (hn : d.Number = 0 ∨ d.Number = 2 ∨ d.Number = 3)
    (hbad : d.Content.length % 2 = 1 ∨ (∃ c ∈ d.Content, hex.fromHexChar c = none) ∨
      ∃ bs, hex.DecodeString d.Content = (bs, none) ∧ bs.length < headerLen d.Number) :
    (UnmarshalJSON J tm data).1 ≠ none := by
  rcases hbad with h | h | ⟨bs, hbs, hlt⟩
  · obtain ⟨err, he⟩ := UnmarshalJSON_hex_error J tm data d hd (hex.Decode_odd d.Content h)
    rw [he]; simp
  · obtain ⟨err, he⟩ := UnmarshalJSON_hex_error J tm data d hd (hex.Decode_invalid d.Content h)
    rw [he]; simp
  · have e := UnmarshalJSON_eq_ReadTemplate J tm data d bs hd hbs
    rw [ReadTemplate_of_lt (bytes.NewBuffer bs) d.Number d.Vals hn hlt] at e
    rw [e]
    simp

/-- C7 with the reference JSON library on a descriptor of number 0 whose content is empty. -/
theorem UnmarshalJSON_malformed_witness :
    (UnmarshalJSON json.reference ⟨none⟩
      (ascii "\x7b\"number\":0,\"content\":\"\",\"vals\":3\x7d")).1 ≠ none :=
  UnmarshalJSON_malformed json.reference ⟨none⟩
    (ascii "\x7b\"number\":0,\"content\":\"\",\"vals\":3\x7d") ⟨0, [], 3⟩
    (by decide) (Or.inl rfl)
    (Or.inr (Or.inr ⟨[], rfl, by decide⟩))

/-- C8: for a template of each of the three implemented variants, `MarshalJSON` returns what
`json.Marshal` returns on the struct of the three fields `number`, `content` and `vals`,
where the number is 0, 2 or 3 by variant, the count is that of the template, and the
content is the hexadecimal text of the encoding of the header record, of 10, 36 or 38
bytes. The encoding is big-endian and of fixed length: the byte at offset `j` of field `i`
is byte `j` of the word of the field, most significant first, R being written with a
signalling NaN quieted as `binary.Write` does. The text has two characters per byte, the
digit of the high half and the digit of the low half, among `0123456789abcdef`. With the
reference library the text is the object of these three members, as on the three
templates at the end. -/
theorem MarshalJSON_descriptor (J : json.Library) :
    (∀ p : gridpoint.SimplePacking,
      MarshalJSON J ⟨some (.SimplePacking p)⟩ =
        some (J.Marshal ⟨0, hex.EncodeToString (binary.encode definition.SimplePacking.layout p.tplDef),
          (drt.Template.SimplePacking p).GetNumVals⟩) ∧
      (binary.encode definition.SimplePacking.layout p.tplDef).length = 10) ∧
    (∀ p : gridpoint.ComplexPacking,
      MarshalJSON J ⟨some (.ComplexPacking p)⟩ =
        some (J.Marshal ⟨2, hex.EncodeToString (binary.encode definition.ComplexPacking.layout p.tplDef),
          (drt.Template.ComplexPacking p).GetNumVals⟩) ∧
      (binary.encode definition.ComplexPacking.layout p.tplDef).length = 36) ∧
    (∀ p : gridpoint.ComplexPackingAndSpatialDifferencing,
      MarshalJSON J ⟨some (.ComplexPackingAndSpatialDifferencing p)⟩ =
        some (J.Marshal ⟨3, hex.EncodeToString
          (binary.encode definition.ComplexPackingAndSpatialDifferencing.layout p.tplDef),
          (drt.Template.ComplexPackingAndSpatialDifferencing p).GetNumVals⟩) ∧
      (binary.encode definition.ComplexPackingAndSpatialDifferencing.layout p.tplDef).length = 38) ∧
    (headerLayout 0 = definition.SimplePacking.layout ∧
      headerLayout 2 = definition.ComplexPacking.layout ∧
      headerLayout 3 = definition.ComplexPackingAndSpatialDifferencing.layout) ∧
    (∀ n : TemplateNumber, n = 0 ∨ n = 2 ∨ n = 3 →
      ∀ (rec : Record (headerLayout n)) (i j : Nat), i < (headerLayout n).length →
        j < ((headerLayout n).getD i (FieldType.int 0)).size →
        ((binary.encode (headerLayout n) rec).getD
            (binary.dataSize ((headerLayout n).take i) + j) 0).val =
          (if i = 0 then
              (if isSignallingNaN (Record.field (headerLayout n) rec 0) then
                Record.field (headerLayout n) rec 0 + 2 ^ 22
              else Record.field (headerLayout n) rec 0)
            else Record.field (headerLayout n) rec i) /
            256 ^ (((headerLayout n).getD i (FieldType.int 0)).size - 1 - j) % 256) ∧
    (∀ src : List Byte, (hex.EncodeToString src).length = 2 * src.length ∧
      (∀ c ∈ hex.EncodeToString src, c ∈ ascii "0123456789abcdef") ∧
      (hex.EncodeToString src).map Fin.val =
        src.flatMap (fun b =>
          [if b.val / 16 < 10 then 48 + b.val / 16 else 87 + b.val / 16,
            if b.val % 16 < 10 then 48 + b.val % 16 else 87 + b.val % 16])) ∧
    (∀ (n : TemplateNumber) (src : List Byte) (v : Int),
      json.reference.Marshal ⟨n, hex.EncodeToString src, v⟩ =
        (some (ascii "\x7b\"number\":" ++ ascii (Nat.repr n.val) ++ ascii ",\"content\":\"" ++
          hex.EncodeToString src ++ ascii "\",\"vals\":" ++ json.formatInt v ++ ascii "\x7d"),
          none)) ∧
    MarshalJSON json.reference ⟨some (.SimplePacking
        ⟨(⟨1065353216, by decide⟩, ⟨1, by decide⟩, ⟨65534, by decide⟩, ⟨8, by decide⟩,
          ⟨0, by decide⟩, ()), 3⟩)⟩ =
      some (some (ascii
        "\x7b\"number\":0,\"content\":\"3f8000000001fffe0800\",\"vals\":3\x7d"), none) ∧
    MarshalJSON json.reference ⟨some (.SimplePacking
        ⟨(⟨2139095041, by decide⟩, ⟨0, by decide⟩, ⟨0, by decide⟩, ⟨8, by decide⟩,
          ⟨0, by decide⟩, ()), -12⟩)⟩ =
      some (some (ascii
        "\x7b\"number\":0,\"content\":\"7fc00001000000000800\",\"vals\":-12\x7d"), none) ∧
    MarshalJSON json.reference ⟨some (.ComplexPackingAndSpatialDifferencing
        ⟨binary.decode definition.ComplexPackingAndSpatialDifferencing.layout
          [65, 32, 0, 0, 0, 2, 0, 1, 9, 0, 1, 0, 255, 255, 255, 255, 0, 0, 0, 0, 0, 0, 1, 44,
            0, 5, 0, 0, 0, 1, 1, 0, 0, 0, 26, 8, 2, 2], 1038240⟩)⟩ =
      some (some (ascii ("\x7b\"number\":3,\"content\":\"" ++
        "412000000002000109000100ffffffff000000000000012c000500000001010000001a080202" ++
        "\",\"vals\":1038240\x7d")), none) := by
  refine ⟨fun p => ⟨MarshalJSON_simple J p, ?_⟩, fun p => ⟨MarshalJSON_complex J p, ?_⟩,
    fun p => ⟨MarshalJSON_spatial J p, ?_⟩, ⟨rfl, rfl, rfl⟩, ?_, fun src => ⟨?_, ?_, ?_⟩,
    fun n src v => ?_, by decide, by decide, by decide⟩
  · rw [binary.encode_length]; rfl
  · rw [binary.encode_length]; rfl
  · rw [binary.encode_length]; rfl
  · intro n hn rec i j hi hj
    rw [binary.encode_getD (headerLayout n) rec i j hi hj]
    obtain ⟨tail, hl, hints⟩ := headerLayout_shape n hn
    by_cases h0 : i = 0
    · subst h0
      have hc : (headerLayout n).getD 0 (FieldType.int 0) = FieldType.float32 := by
        rw [hl]; rfl
      rw [hc, if_pos rfl]
      rfl
    · have hmem : (headerLayout n).getD i (FieldType.int 0) ∈ tail := by
        obtain ⟨k, rfl⟩ : ∃ k, i = k + 1 := ⟨i - 1, by omega⟩
        rw [hl] at hi ⊢
        have hk : k < tail.length := by simpa using hi
        rw [List.getD_cons_succ, List.getD_eq_getElem _ _ hk]
        exact List.getElem_mem _
      have hne := hints _ hmem
      rw [if_neg h0]
      cases hf : (headerLayout n).getD i (FieldType.int 0) with
      | int s => rfl
      | float32 => exact absurd hf hne
  · exact hex.EncodeToString_length src
  · exact hex.EncodeToString_mem src
  · exact hex.EncodeToString_val src
  · have hq := json.quote_hex _ (hex.EncodeToString_mem src)
    have s1 : ascii ",\"content\":\"" = ascii ",\"content\":" ++ [byteOf '"'] := by decide
    have s2 : ascii "\",\"vals\":" = byteOf '"' :: ascii ",\"vals\":" := by decide
    show (some (json.marshalText _), none) = _
    simp only [json.marshalText, hq, s1, s2, List.append_assoc, List.cons_append,
      List.nil_append, List.singleton_append]

/-- C13: `MarshalJSON` has no failure path of its own for a template of another dynamic type
whose `Definition()` is a fixed-size record: it returns what `json.Marshal` returns on the
struct whose number is 0, the number of Simple Packing, whose content is the hexadecimal
text of the record and whose count is that of the template, as it does for a Simple
Packing; with a JSON library that gives back what it marshalled this succeeds, and the
text reads back with the number 0. -/
theorem MarshalJSON_foreign_variant (J : json.Library) (layout : List FieldType)
    (rec : Record layout) (numVals : Int) :
    MarshalJSON J ⟨some (.other (.fixed layout rec) numVals)⟩ =
        some (J.Marshal ⟨GridPointDataSimplePacking,
          hex.EncodeToString (binary.encode layout rec), numVals⟩) ∧
      GridPointDataSimplePacking = 0 ∧
      (∀ p : gridpoint.SimplePacking, ∃ d : templateMarshaler,
        MarshalJSON J ⟨some (.SimplePacking p)⟩ = some (J.Marshal d) ∧
          d.Number = GridPointDataSimplePacking) ∧
      (J.Lawful → isInt numVals →
        ∃ data d, MarshalJSON J ⟨some (.other (.fixed layout rec) numVals)⟩ =
            some (some data, none) ∧
          J.Unmarshal data = .ok d ∧ d.Number = GridPointDataSimplePacking) ∧
      ∃ data, MarshalJSON json.reference ⟨some (.other (.fixed layout rec) numVals)⟩ =
        some (some data, none) := by
  have e : ∀ K : json.Library, MarshalJSON K ⟨some (.other (.fixed layout rec) numVals)⟩ =
      some (K.Marshal ⟨GridPointDataSimplePacking,
        hex.EncodeToString (binary.encode layout rec), numVals⟩) := by
    intro K
    simp [MarshalJSON, Template.Definition, binary.Write, Template.GetNumVals,
      GridPointDataSimplePacking]
  refine ⟨e J, rfl, fun p => ⟨_, MarshalJSON_simple J p, rfl⟩, ?_, ?_⟩
  · intro hJ hv
    obtain ⟨data, hm, hu⟩ := hJ ⟨GridPointDataSimplePacking,
      hex.EncodeToString (binary.encode layout rec), numVals⟩ (hex.EncodeToString_mem _) hv
    exact ⟨data, _, by rw [e J, hm], hu, rfl⟩
  · exact ⟨json.marshalText ⟨GridPointDataSimplePacking,
      hex.EncodeToString (binary.encode layout rec), numVals⟩, by rw [e json.reference]; rfl⟩

/-- C14: when `UnmarshalJSON` returns an error, whatever the input, the receiver is left as
it was; its `Template` field is assigned only on the paths that return nil. -/
theorem UnmarshalJSON_atomic (J : json.Library) (tm : TemplateMarshaler) (data : List Byte)
    (h : (UnmarshalJSON J tm data).1 ≠ none) :
    (UnmarshalJSON J tm data).2 = tm := by
  rcases hd : J.Unmarshal data with err | d
  · simp [UnmarshalJSON, hd]
  · rcases hx : hex.DecodeString d.Content with ⟨bs, _ | err⟩
    · have e := UnmarshalJSON_eq_ReadTemplate J tm data d bs hd hx
      rcases ReadTemplate_shape (bytes.NewBuffer bs) d.Number d.Vals with ⟨t, ht⟩ | ⟨err, herr⟩
      · rw [ht] at e
        rw [e] at h
        exact absurd rfl h
      · rw [herr] at e
        rw [e]
    · simp [UnmarshalJSON, hd, hx]

/-- C14 on a marshaler that holds a Simple Packing template, for four inputs: text that is
not JSON, a content that is not hexadecimal, a header cut short, and a number that is not
implemented. -/
theorem UnmarshalJSON_atomic_witness :
    (UnmarshalJSON json.reference
      ⟨some (.SimplePacking ⟨binary.decode definition.SimplePacking.layout [], 3⟩)⟩
      (ascii "not json")).2 =
      ⟨some (.SimplePacking ⟨binary.decode definition.SimplePacking.layout [], 3⟩)⟩ ∧
    (UnmarshalJSON json.reference
      ⟨some (.SimplePacking ⟨binary.decode definition.SimplePacking.layout [], 3⟩)⟩
      (ascii "\x7b\"number\":0,\"content\":\"zz\",\"vals\":1\x7d")).1 =
      some (.InvalidByteError (byteOf 'z')) ∧
    (UnmarshalJSON json.reference
      ⟨some (.SimplePacking ⟨binary.decode definition.SimplePacking.layout [], 3⟩)⟩
      (ascii "\x7b\"number\":0,\"content\":\"3f80\",\"vals\":1\x7d")).1 =
      some .ErrUnexpectedEOF ∧
    (UnmarshalJSON json.reference
      ⟨some (.SimplePacking ⟨binary.decode definition.SimplePacking.layout [], 3⟩)⟩
      (ascii "\x7b\"number\":4,\"content\":\"3f80\",\"vals\":1\x7d")).1 =
      some (.errorf "data template not implemented: 4") :=
  ⟨UnmarshalJSON_atomic json.reference _ (ascii "not json") (by decide),
    by decide, by decide, by decide⟩

/-- C15, as stated, fails: with the reference JSON library, on the descriptor of number 0
whose content `7f800001000000000800` decodes to the ten bytes of a Simple Packing header
whose R is a signalling NaN, `UnmarshalJSON` succeeds, and `MarshalJSON` of the result
emits the content `7fc00001000000000800`, which is not the hexadecimal text of those ten
bytes. -/
theorem UnmarshalJSON_ignores_trailing_signalling :
    hex.DecodeString (ascii "7f800001000000000800") =
      ([127, 128, 0, 1, 0, 0, 0, 0, 8, 0], none) ∧
    headerLen 0 + 0 = ([127, 128, 0, 1, 0, 0, 0, 0, 8, 0] : List Byte).length ∧
    ∃ t, UnmarshalJSON json.reference ⟨none⟩
        (ascii "\x7b\"number\":0,\"content\":\"7f800001000000000800\",\"vals\":3\x7d") =
        (none, ⟨some t⟩) ∧
      MarshalJSON json.reference ⟨some t⟩ =
        some (some (ascii "\x7b\"number\":0,\"content\":\"7fc00001000000000800\",\"vals\":3\x7d"),
          none) ∧
      MarshalJSON json.reference ⟨some t⟩ ≠
        some (json.reference.Marshal ⟨0, hex.EncodeToString
          (([127, 128, 0, 1, 0, 0, 0, 0, 8, 0] : List Byte).take (headerLen 0)), 3⟩) := by
  refine ⟨by decide, by decide, .SimplePacking ⟨binary.decode definition.SimplePacking.layout
    [127, 128, 0, 1, 0, 0, 0, 0, 8, 0], 3⟩, by decide, by decide, by decide⟩

/-- C15, amended: for a descriptor of number 0, 2 or 3 whose content decodes to `L(n)` bytes
or more, `UnmarshalJSON` succeeds and stores the template that `ReadTemplate` builds from
the first `L(n)` bytes alone; `MarshalJSON` of that template passes as content the
hexadecimal text of those `L(n)` bytes with a signalling NaN in R, their first four bytes,
quieted: the text of those very bytes when R is no signalling NaN, and not the original
content when bytes were left over. -/
theorem UnmarshalJSON_ignores_trailing (J : json.Library) (tm : TemplateMarshaler)
    (data : List Byte) (d : templateMarshaler) (bs : List Byte)
    (hd : J.Unmarshal data = .ok d) (hn : d.Number = 0 ∨ d.Number = 2 ∨ d.Number = 3)
    (hx : hex.DecodeString d.Content = (bs, none)) (hlen : headerLen d.Number ≤ bs.length) :
    ∃ t, UnmarshalJSON J tm data = (none, ⟨some t⟩) ∧
      (ReadTemplate (bytes.NewBuffer (bs.take (headerLen d.Number))) d.Number d.Vals).1 =
        (some t, none) ∧
      MarshalJSON J ⟨some t⟩ =
        some (J.Marshal ⟨d.Number,
          hex.EncodeToString (quietHeader (bs.take (headerLen d.Number))), d.Vals⟩) ∧
      (¬ isSignallingNaN (bigEndian (bs.take 4)) →
        MarshalJSON J ⟨some t⟩ =
          some (J.Marshal ⟨d.Number, hex.EncodeToString (bs.take (headerLen d.Number)),
            d.Vals⟩)) ∧
      (headerLen d.Number < bs.length →
        hex.EncodeToString (quietHeader (bs.take (headerLen d.Number))) ≠ d.Content) := by
  have e := UnmarshalJSON_eq_ReadTemplate J tm data d bs hd hx
  have hfour := four_le_headerLen d.Number hn
  have htl : (bs.take (headerLen d.Number)).length = headerLen d.Number := by
    rw [List.length_take]; omega
  have hlen2 : 2 * bs.length = d.Content.length := by
    have := hex.Decode_length d.Content (by
      show (hex.DecodeString d.Content).2 = none
      rw [hx])
    have h1 : (hex.Decode d.Content).1 = bs := by
      show (hex.DecodeString d.Content).1 = bs
      rw [hx]
    rwa [h1] at this
  have hne : headerLen d.Number < bs.length →
      hex.EncodeToString (quietHeader (bs.take (headerLen d.Number))) ≠ d.Content := by
    intro hlt heq
    have := congrArg List.length heq
    rw [hex.EncodeToString_length, binary.quietHeader_length _ (by rw [htl]; exact hfour),
      htl] at this
    omega
  have hplain : ¬ isSignallingNaN (bigEndian (bs.take 4)) →
      quietHeader (bs.take (headerLen d.Number)) = bs.take (headerLen d.Number) := by
    intro h
    refine binary.quietHeader_of_not _ (by rw [htl]; exact hfour) ?_
    rw [List.take_take, Nat.min_eq_left hfour]
    exact h
  have henc := encode_decode_headerLayout d.Number hn bs hlen
  have htake : ∀ n, n ≤ bs.length → (bs.take n).take n = bs.take n := by
    intro n _
    rw [List.take_take, Nat.min_self]
  have hlen3 : ∀ n, n ≤ bs.length → n ≤ (bs.take n).length := by
    intro n h
    rw [List.length_take]; omega
  obtain ⟨n, c, v⟩ := d
  simp only at hn hlen e hne hplain henc ⊢
  rcases hn with rfl | rfl | rfl
  · have h : binary.dataSize definition.SimplePacking.layout ≤ bs.length := hlen
    have hr := ReadTemplate_zero_of_le (bytes.NewBuffer bs) v h
    have hr2 := ReadTemplate_zero_of_le
      (bytes.NewBuffer (bs.take (binary.dataSize definition.SimplePacking.layout))) v (hlen3 _ h)
    simp only [bytes.NewBuffer] at hr hr2 e
    rw [htake _ h] at hr2
    rw [hr] at e
    have hm : MarshalJSON J ⟨some (.SimplePacking ⟨binary.decode definition.SimplePacking.layout
        (bs.take (binary.dataSize definition.SimplePacking.layout)), v⟩)⟩ =
        some (J.Marshal ⟨0, hex.EncodeToString (quietHeader (bs.take (headerLen 0))), v⟩) := by
      rw [MarshalJSON_simple, ← henc]
      rfl
    refine ⟨_, e, ?_, hm, ?_, hne⟩
    · show (ReadTemplate ⟨bs.take (binary.dataSize definition.SimplePacking.layout)⟩ 0 v).1 = _
      rw [hr2]
    · intro hs
      rw [hm, hplain hs]
  · have h : binary.dataSize definition.ComplexPacking.layout ≤ bs.length := hlen
    have hr := ReadTemplate_two_of_le (bytes.NewBuffer bs) v h
    have hr2 := ReadTemplate_two_of_le
      (bytes.NewBuffer (bs.take (binary.dataSize definition.ComplexPacking.layout))) v (hlen3 _ h)
    simp only [bytes.NewBuffer] at hr hr2 e
    rw [htake _ h] at hr2
    rw [hr] at e
    have hm : MarshalJSON J ⟨some (.ComplexPacking ⟨binary.decode definition.ComplexPacking.layout
        (bs.take (binary.dataSize definition.ComplexPacking.layout)), v⟩)⟩ =
        some (J.Marshal ⟨2, hex.EncodeToString (quietHeader (bs.take (headerLen 2))), v⟩) := by
      rw [MarshalJSON_complex, ← henc]
      rfl
    refine ⟨_, e, ?_, hm, ?_, hne⟩
    · show (ReadTemplate ⟨bs.take (binary.dataSize definition.ComplexPacking.layout)⟩ 2 v).1 = _
      rw [hr2]
    · intro hs
      rw [hm, hplain hs]
  · have h : binary.dataSize definition.ComplexPackingAndSpatialDifferencing.layout ≤
        bs.length := hlen
    have hr := ReadTemplate_three_of_le (bytes.NewBuffer bs) v h
    have hr2 := ReadTemplate_three_of_le
      (bytes.NewBuffer (bs.take
        (binary.dataSize definition.ComplexPackingAndSpatialDifferencing.layout))) v (hlen3 _ h)
    simp only [bytes.NewBuffer] at hr hr2 e
    rw [htake _ h] at hr2
    rw [hr] at e
    have hm : MarshalJSON J ⟨some (.ComplexPackingAndSpatialDifferencing
        ⟨binary.decode definition.ComplexPackingAndSpatialDifferencing.layout
          (bs.take (binary.dataSize definition.ComplexPackingAndSpatialDifferencing.layout)),
          v⟩)⟩ =
        some (J.Marshal ⟨3, hex.EncodeToString (quietHeader (bs.take (headerLen 3))), v⟩) := by
      rw [MarshalJSON_spatial, ← henc]
      rfl
    refine ⟨_, e, ?_, hm, ?_, hne⟩
    · show (ReadTemplate
        ⟨bs.take (binary.dataSize definition.ComplexPackingAndSpatialDifferencing.layout)⟩ 3 v).1 = _
      rw [hr2]
    · intro hs
      rw [hm, hplain hs]

/-- C15, amended, with the reference JSON library on two descriptors of number 0: one whose
content is a Simple Packing header followed by two more bytes, written in upper case, for
which `MarshalJSON` gives back the ten bytes of the header, in lower case; and one whose
header holds the signalling NaN `7f800001`, followed by one more byte, for which
`MarshalJSON` gives back the ten bytes with R quieted. -/
theorem UnmarshalJSON_ignores_trailing_witness :
    (∃ t, UnmarshalJSON json.reference ⟨none⟩
        (ascii "\x7b\"number\":0,\"content\":\"3F800000000000000800ABCD\",\"vals\":3\x7d") =
        (none, ⟨some t⟩) ∧
      MarshalJSON json.reference ⟨some t⟩ =
        some (some (ascii "\x7b\"number\":0,\"content\":\"3f800000000000000800\",\"vals\":3\x7d"),
          none)) ∧
    (∃ t, UnmarshalJSON json.reference ⟨none⟩
        (ascii "\x7b\"number\":0,\"content\":\"7f80000100000000080055\",\"vals\":3\x7d") =
        (none, ⟨some t⟩) ∧
      MarshalJSON json.reference ⟨some t⟩ =
        some (some (ascii "\x7b\"number\":0,\"content\":\"7fc00001000000000800\",\"vals\":3\x7d"),
          none)) := by
  refine ⟨?_, ?_⟩
  · obtain ⟨t, h1, -, -, h4, -⟩ := UnmarshalJSON_ignores_trailing json.reference ⟨none⟩
      (ascii "\x7b\"number\":0,\"content\":\"3F800000000000000800ABCD\",\"vals\":3\x7d")
      ⟨0, ascii "3F800000000000000800ABCD", 3⟩ [63, 128, 0, 0, 0, 0, 0, 0, 8, 0, 171, 205]
      (by decide) (Or.inl rfl) (by decide) (by decide)
    exact ⟨t, h1, (h4 (by decide)).trans (by decide)⟩
  · obtain ⟨t, h1, -, h3, -, -⟩ := UnmarshalJSON_ignores_trailing json.reference ⟨none⟩
      (ascii "\x7b\"number\":0,\"content\":\"7f80000100000000080055\",\"vals\":3\x7d")
      ⟨0, ascii "7f80000100000000080055", 3⟩ [127, 128, 0, 1, 0, 0, 0, 0, 8, 0, 85]
      (by decide) (Or.inl rfl) (by decide) (by decide)
    exact ⟨t, h1, h3.trans (by decide)⟩

end TemplateMarshaler

/-! ## Value reconstruction: `ReadAllData` -/

/-- C11, as stated, fails: `ReadTemplate` with the number 0 and the count -1 on a Simple
Packing header returns a template, and `ReadAllData` on that template succeeds on the bytes
that follow the header, reading nothing: the sequence it returns is empty, and its length
is not -1. -/
theorem ReadAllData_length_negative :
    ∃ t vals, ReadTemplate ⟨[63, 128, 0, 0, 0, 0, 0, 0, 8, 0, 0, 10, 20]⟩ 0 (-1) =
        ((some t, none), ⟨[0, 10, 20]⟩) ∧
      t.ReadAllData Conventions.symbolic (fun _ _ _ => (none, none)) ⟨[0, 10, 20]⟩ =
        (some vals, none) ∧
      vals = [] ∧ (vals.length : Int) ≠ -1 :=
  ⟨.SimplePacking ⟨binary.decode definition.SimplePacking.layout
    [63, 128, 0, 0, 0, 0, 0, 0, 8, 0], -1⟩, [], by decide, by decide, rfl, by decide⟩

/-- C11, amended: when `ReadTemplate` returns a template (the number is then 0, 2 or 3) and
`ReadAllData` on that template returns values from a bitstream, the values are exactly
`numVals` when `numVals` is not negative, and none when it is negative. -/
theorem ReadAllData_length {F : Type} (C : Conventions F)
    (foreign : AnyValue → Int → BitReader → Option (List F) × Option Error)
    (r : BitReader) (n : TemplateNumber) (numVals : Int) (t : Template)
    (hread : (ReadTemplate r n numVals).1 = (some t, none))
    (r2 : BitReader) (vals : List F)
    (hdata : t.ReadAllData C foreign r2 = (some vals, none)) :
    (n = 0 ∨ n = 2 ∨ n = 3) ∧ (0 ≤ numVals → (vals.length : Int) = numVals) ∧
      (numVals < 0 → vals = []) := by
  obtain ⟨hn, himpl, hnum⟩ := ReadTemplate_some r n numVals t hread
  have key : vals.length = numVals.toNat := by
    cases t with
    | other d v => cases himpl
    | SimplePacking p =>
      have := gridpoint.simple_values_length C p r2 vals hdata
      rw [this]
      exact congrArg Int.toNat hnum
    | ComplexPacking p =>
      have := gridpoint.complex_values_length C p r2 vals hdata
      have e : p.numVals = numVals := hnum
      omega
    | ComplexPackingAndSpatialDifferencing p =>
      have := gridpoint.spatial_values_length C p r2 vals hdata
      have e : p.numVals = numVals := hnum
      omega
  refine ⟨hn, fun h => by omega, fun h => ?_⟩
  have : vals.length = 0 := by omega
  exact List.length_eq_zero.1 this

/-- C11, amended, on a Complex Packing header that declares two groups, of lengths 3 and 4,
with a count of 7: the reader holds the header and then the groups and their elements,
and `ReadAllData` on what is left after the header returns seven values, which are the
formulas of the elements 2, 3, 4 of the first group and 3, 4, 5, 6 of the second. -/
theorem ReadAllData_length_witness :
    ReadTemplate ⟨[63, 128, 0, 0, 0, 0, 0, 0, 4, 0, 0, 0, 0, 0, 0, 0, 0, 0, 0, 0, 0, 0, 0, 2,
        2, 2, 0, 0, 0, 1, 1, 0, 0, 0, 4, 4, 18, 98, 41, 137, 26, 0]⟩ 2 7 =
      ((some (.ComplexPacking ⟨binary.decode definition.ComplexPacking.layout
        [63, 128, 0, 0, 0, 0, 0, 0, 4, 0, 0, 0, 0, 0, 0, 0, 0, 0, 0, 0, 0, 0, 0, 2,
          2, 2, 0, 0, 0, 1, 1, 0, 0, 0, 4, 4], 7⟩), none), ⟨[18, 98, 41, 137, 26, 0]⟩) ∧
    ∃ vals, (Template.ComplexPacking ⟨binary.decode definition.ComplexPacking.layout
        [63, 128, 0, 0, 0, 0, 0, 0, 4, 0, 0, 0, 0, 0, 0, 0, 0, 0, 0, 0, 0, 0, 0, 2,
          2, 2, 0, 0, 0, 1, 1, 0, 0, 0, 4, 4], 7⟩).ReadAllData Conventions.symbolic
        (fun _ _ _ => (none, none)) ⟨[18, 98, 41, 137, 26, 0]⟩ = (some vals, none) ∧
      vals.map Formula.X = [2, 3, 4, 3, 4, 5, 6] ∧
      (vals.length : Int) = 7 := by
  have hread : ReadTemplate ⟨[63, 128, 0, 0, 0, 0, 0, 0, 4, 0, 0, 0, 0, 0, 0, 0, 0, 0, 0, 0, 0,
      0, 0, 2, 2, 2, 0, 0, 0, 1, 1, 0, 0, 0, 4, 4, 18, 98, 41, 137, 26, 0]⟩ 2 7 =
      ((some (.ComplexPacking ⟨binary.decode definition.ComplexPacking.layout
        [63, 128, 0, 0, 0, 0, 0, 0, 4, 0, 0, 0, 0, 0, 0, 0, 0, 0, 0, 0, 0, 0, 0, 2,
          2, 2, 0, 0, 0, 1, 1, 0, 0, 0, 4, 4], 7⟩), none), ⟨[18, 98, 41, 137, 26, 0]⟩) := by
    decide
  have hdata : (Template.ComplexPacking ⟨binary.decode definition.ComplexPacking.layout
      [63, 128, 0, 0, 0, 0, 0, 0, 4, 0, 0, 0, 0, 0, 0, 0, 0, 0, 0, 0, 0, 0, 0, 2,
        2, 2, 0, 0, 0, 1, 1, 0, 0, 0, 4, 4], 7⟩).ReadAllData Conventions.symbolic
      (fun _ _ _ => (none, none)) ⟨[18, 98, 41, 137, 26, 0]⟩ =
      (some [⟨1065353216, 0, 0, 2⟩, ⟨1065353216, 0, 0, 3⟩, ⟨1065353216, 0, 0, 4⟩,
        ⟨1065353216, 0, 0, 3⟩, ⟨1065353216, 0, 0, 4⟩, ⟨1065353216, 0, 0, 5⟩,
        ⟨1065353216, 0, 0, 6⟩], none) := by
    decide
  exact ⟨hread, _, hdata, by decide,
    (ReadAllData_length Conventions.symbolic (fun _ _ _ => (none, none)) _ 2 7 _
      (congrArg Prod.fst hread) _ _ hdata).2.1 (by decide)⟩

end drt
